import Mathlib

/-!
# Verification of yaml-doctor against its specification

This file gives a shallow embedding, in Lean 4, of the core algorithms of the
yaml-doctor repository (an error-tolerant YAML checker and fixer written in
JavaScript) and settles a list of claims made by its natural-language
specification.

Strings are modelled as `List Char` (JavaScript strings are sequences of
UTF-16 code units; all inputs considered here stay inside the basic
multilingual plane and contain no surrogates, where the two notions of
character coincide).  JavaScript numbers used as indices are modelled as
`Int` where sentinel values such as `-1` occur, and as `Nat` where the
source only ever produces non-negative values.

The base YAML parser (the external `js-yaml` library) is not part of the
repository; following the specification's component boundary it is modelled
as an abstract collaborator: the sequence of listener events and the final
outcome (normal completion or a thrown, possibly position-tagged, exception)
that it delivers is a parameter of the embedded `lint` function.
-/

set_option maxRecDepth 100000

namespace YamlDoctor

/-! ## Small JavaScript-faithful string utilities -/

/-- Characters matched by JavaScript's regular-expression class `\s`
(whitespace, including line terminators). -/
def isJsSpace (c : Char) : Bool :=
  c = ' ' ∨ c = '\t' ∨ c = '\n' ∨ c = '\x0b' ∨ c = '\x0c' ∨ c = '\r' ∨
  c = '\u00A0' ∨ c = '\u1680' ∨ ('\u2000' ≤ c ∧ c ≤ '\u200A') ∨
  c = '\u2028' ∨ c = '\u2029' ∨ c = '\u202F' ∨ c = '\u205F' ∨
  c = '\u3000' ∨ c = '\uFEFF'

/-- Characters matched by JavaScript's regular-expression class `\w`. -/
def isJsWord (c : Char) : Bool :=
  ('a' ≤ c ∧ c ≤ 'z') ∨ ('A' ≤ c ∧ c ≤ 'Z') ∨ ('0' ≤ c ∧ c ≤ '9') ∨ c = '_'

/-- JavaScript line terminators (the positions at which a multiline `^` / `$`
anchor matches). -/
def isLineTerm (c : Char) : Bool :=
  c = '\n' ∨ c = '\r' ∨ c = '\u2028' ∨ c = '\u2029'

/-- Decimal digit. -/
def isDigitCh (c : Char) : Bool := '0' ≤ c ∧ c ≤ '9'

/-- Hexadecimal digit, as tested by `isHexDigit` in the source. -/
def isHexDigitCh (c : Char) : Bool :=
  ('0' ≤ c ∧ c ≤ '9') ∨ ('A' ≤ c ∧ c ≤ 'F') ∨ ('a' ≤ c ∧ c ≤ 'f')

/-- `s[i]` as JavaScript sees it: `none` plays the role of `undefined`,
which is also returned for negative indices. -/
def charAt (s : List Char) (i : Int) : Option Char :=
  if i < 0 then none else s.get? i.toNat

/-- JavaScript `String.prototype.slice` with a non-negative start index and
an end bound (`s.slice(a, b)`); both bounds clamp to the string length. -/
def jsSlice (s : List Char) (a b : Nat) : List Char :=
  (s.take b).drop a

/-- JavaScript `String.prototype.indexOf` for a single character, searching
from index `start` upward; `-1` plays the role of "not found". -/
def idxOfFrom (s : List Char) (c : Char) (start : Nat) : Int :=
  match (s.drop start).findIdx? (fun d => d = c) with
  | some i => (start + i : Nat)
  | none => -1

/-- Downward scan used to model `String.prototype.lastIndexOf`. -/
def lastIdxScan (s : List Char) (c : Char) : Nat → Int
  | 0 => if s.get? 0 = some c then 0 else -1
  | j + 1 => if s.get? (j + 1) = some c then ((j + 1 : Nat) : Int) else lastIdxScan s c j

/-- JavaScript `String.prototype.lastIndexOf(c, from)`: the from-index is
clamped into `[0, length - 1]` and the scan runs downward. -/
def jsLastIndexOf (s : List Char) (c : Char) (f : Int) : Int :=
  if s.length = 0 then -1
  else lastIdxScan s c (if f < 0 then 0 else min f.toNat (s.length - 1))

/-! ## StringEditor (`lib/string-editor.js`)

The editor records a list of `{position, size}` edits, kept in order of
position, where each `size` is the accumulated size of all edits up to and
including that one.  `splice` mirrors `StringEditor.prototype.splice`: the
in-place downward `for` loop of the source is rendered as a recursion over
the reversed edit list (`spliceLoop`), where the boolean argument plays the
role of `removable > 0` and the `Int` argument accumulates
`accumulatedSize`. -/

structure Edit where
  position : Int
  size : Int
deriving DecidableEq, Repr

structure Editor where
  value : List Char
  originalValue : List Char
  edits : List Edit
deriving DecidableEq, Repr

def Editor.init (s : List Char) : Editor := ⟨s, s, []⟩

/-- The body of the downward loop in `StringEditor.splice`.  The first list
is the part of the edit list not yet examined, most recent edit first; `acc`
holds the already-processed suffix of the new edit list (edits after the new
edit, in ascending order); the `Bool` is `removable > 0`. -/
def spliceLoop (pos size : Int) : List Edit → List Edit → Bool → Int → List Edit
  | [], acc, _, accSize => ⟨pos, accSize⟩ :: acc
  | e :: rest, acc, mode, accSize =>
    if pos < e.position then
      if mode then
        spliceLoop pos size rest acc true accSize
      else if pos < e.position + size then
        spliceLoop pos size rest (⟨e.position + size, e.size + size⟩ :: acc) false accSize
      else
        spliceLoop pos size rest acc true (accSize + e.size)
    else if e.position = pos then
      spliceLoop pos size rest acc true (if mode then accSize else accSize + e.size)
    else
      rest.reverse ++ e :: ⟨pos, if mode then accSize else accSize + e.size⟩ :: acc

def spliceEdits (edits : List Edit) (pos size : Int) : List Edit :=
  spliceLoop pos size edits.reverse [] false size

def Editor.splice (ed : Editor) (position remove : Nat) (ins : List Char) : Editor :=
  { ed with
    value := ed.value.take position ++ ins ++ ed.value.drop (position + remove)
    edits := spliceEdits ed.edits position ((ins.length : Int) - remove) }

/-- Backward scan of `StringEditor.originalPosition`, over the reversed edit
list. -/
def origPosLoop (p : Int) : List Edit → Int
  | [] => p
  | e :: rest => if e.position ≤ p then p - e.size else origPosLoop p rest

def Editor.originalPosition (ed : Editor) (p : Int) : Int :=
  origPosLoop p ed.edits.reverse

/-- The inner forward loop of `StringEditor.currentPosition`. -/
def rollLoop : List Edit → Int → Int → Int
  | [], pos, _ => pos
  | e :: rest, pos, offset =>
    if pos < e.position then pos
    else rollLoop rest (pos + e.size - offset) e.size

/-- Backward scan of `StringEditor.currentPosition`; `passed` collects the
edits already skipped (those after the current index), in ascending order,
so that the forward roll can examine them. -/
def curPosLoop : List Edit → List Edit → Int → Int
  | [], _, p => p
  | e :: rest, passed, p =>
    if e.position ≤ p then rollLoop passed (p + e.size) e.size
    else curPosLoop rest (e :: passed) p

def Editor.currentPosition (ed : Editor) (p : Int) : Int :=
  curPosLoop ed.edits.reverse [] p

structure Mark where
  position : Int
  line : Nat
  column : Int
deriving DecidableEq, Repr

/-- `StringEditor.markOriginalPosition` (the `line` count mirrors
`countCharactersSparse('\n', originalValue, 0, lineStart)`). -/
def Editor.markOriginalPosition (ed : Editor) (p : Int) : Mark :=
  let op := ed.originalPosition p
  let lineStart : Int := jsLastIndexOf ed.originalValue '\n' (op - 1) + 1
  let line := (ed.originalValue.take lineStart.toNat).count '\n'
  ⟨op, line, op - lineStart⟩

/-! ## Analysis of `StringEditor.splice`

`spliceEdits_spec` is the central structural lemma: on a position-sorted edit
list, a splice at `pos` of net size `size` splits the list into the edits
strictly before `pos` (kept as they are), a middle block that the new edit
absorbs, and the surviving later edits (shifted by `size`), and the new
edit's stored size is the splice's own size plus the size of the last
edit at or before it. -/

def shiftEdit (size : Int) (e : Edit) : Edit := ⟨e.position + size, e.size + size⟩

/-- Size stored on the last edit of a list (`0` when there is none): the
accumulated displacement of positions at or after every edit. -/
def lastSize (l : List Edit) : Int := ((l.getLast?).map Edit.size).getD 0

/-- The edit list is strictly sorted by position. -/
def EditsSorted (edits : List Edit) : Prop :=
  List.Pairwise (fun a b : Edit => a.position < b.position) edits

/-- Stored (accumulated) sizes are non-negative and non-decreasing; this
holds whenever no splice has removed more than it inserted. -/
def EditsMono (edits : List Edit) : Prop :=
  List.Pairwise (fun a b : Edit => a.size ≤ b.size) edits ∧ ∀ e ∈ edits, 0 ≤ e.size

theorem spliceLoop_survivors (pos size : Int) (Srev : List Edit)
    (hS : ∀ e ∈ Srev, pos < e.position ∧ pos < e.position + size) :
    ∀ rest acc accSize,
      spliceLoop pos size (Srev ++ rest) acc false accSize
        = spliceLoop pos size rest (Srev.reverse.map (shiftEdit size) ++ acc) false accSize := by
  induction Srev with
  | nil => intro rest acc accSize; simp
  | cons e t ih =>
    intro rest acc accSize
    have he := hS e (by simp)
    have ht : ∀ x ∈ t, pos < x.position ∧ pos < x.position + size := fun x hx => hS x (by simp [hx])
    simp only [List.cons_append, spliceLoop, if_pos he.1, if_pos he.2, Bool.false_eq_true,
      if_false, List.append_eq]
    rw [ih ht]
    simp [shiftEdit, List.map_append]

theorem spliceLoop_skip (pos size : Int) (l : List Edit)
    (hl : ∀ e ∈ l, pos ≤ e.position) :
    ∀ rest acc accSize,
      spliceLoop pos size (l ++ rest) acc true accSize
        = spliceLoop pos size rest acc true accSize := by
  induction l with
  | nil => intro rest acc accSize; simp
  | cons e t ih =>
    intro rest acc accSize
    have he := hl e (by simp)
    have ht : ∀ x ∈ t, pos ≤ x.position := fun x hx => hl x (by simp [hx])
    by_cases hlt : pos < e.position
    · simp only [List.cons_append, spliceLoop, if_pos hlt]
      exact ih ht rest acc accSize
    · have heq : e.position = pos := le_antisymm (not_lt.mp hlt) he
      simp only [List.cons_append, spliceLoop, if_neg (by omega : ¬ pos < e.position), if_pos heq]
      exact ih ht rest acc accSize

theorem spliceLoop_first_absorbed (pos size : Int) (m : Edit)
    (hm : m.position = pos ∨ (pos < m.position ∧ m.position + size ≤ pos)) :
    ∀ rest acc accSize,
      spliceLoop pos size (m :: rest) acc false accSize
        = spliceLoop pos size rest acc true (accSize + m.size) := by
  intro rest acc accSize
  rcases hm with heq | ⟨hgt, habs⟩
  · simp only [spliceLoop, if_neg (by omega : ¬ pos < m.position), if_pos heq,
      Bool.false_eq_true, if_false]
  · simp only [spliceLoop, if_pos hgt, if_neg (by omega : ¬ pos < m.position + size),
      Bool.false_eq_true, if_false]

theorem spliceLoop_break (pos size : Int) (a : Edit) (ha : a.position < pos)
    (Arev : List Edit) (acc : List Edit) (mode : Bool) (accSize : Int) :
    spliceLoop pos size (a :: Arev) acc mode accSize
      = Arev.reverse ++ a :: ⟨pos, if mode then accSize else accSize + a.size⟩ :: acc := by
  simp only [spliceLoop, if_neg (by omega : ¬ pos < a.position),
    if_neg (by omega : ¬ a.position = pos)]

theorem spliceLoop_tail (pos size : Int) (A : List Edit)
    (hA : ∀ e ∈ A, e.position < pos) (acc : List Edit) (mode : Bool) (accSize : Int) :
    spliceLoop pos size A.reverse acc mode accSize
      = A ++ ⟨pos, if mode then accSize else accSize + lastSize A⟩ :: acc := by
  rcases List.eq_nil_or_concat A with rfl | ⟨A₀, a, rfl⟩
  · simp [spliceLoop, lastSize]
  · have ha : a.position < pos := hA a (by simp)
    rw [List.concat_eq_append, List.reverse_append, List.reverse_singleton,
      List.singleton_append, spliceLoop_break pos size a ha]
    simp [lastSize, List.getLast?_concat]

/-- Full description of `StringEditor.splice`'s effect on a decomposed edit
list: the new edit replaces the middle block `M` (edits at the splice
position or swallowed by the removal), absorbing the accumulated size of the
last edit at or before it, and shifts the surviving edits `S`. -/
theorem spliceEdits_spec (pos size : Int) (A M S : List Edit)
    (hA : ∀ e ∈ A, e.position < pos)
    (hM : ∀ e ∈ M, e.position = pos ∨ (pos < e.position ∧ e.position + size ≤ pos))
    (hS : ∀ e ∈ S, pos < e.position ∧ pos < e.position + size) :
    spliceEdits (A ++ M ++ S) pos size
      = A ++ ⟨pos, size + lastSize (A ++ M)⟩ :: S.map (shiftEdit size) := by
  unfold spliceEdits
  rw [show (A ++ M ++ S).reverse = S.reverse ++ (M.reverse ++ A.reverse) by simp]
  rw [spliceLoop_survivors pos size S.reverse
    (by intro e he; exact hS e (List.mem_reverse.mp he))]
  rw [List.reverse_reverse, List.append_nil]
  rcases List.eq_nil_or_concat M with rfl | ⟨M₀, m, rfl⟩
  · rw [List.reverse_nil, List.nil_append, spliceLoop_tail pos size A hA]
    simp [List.append_nil]
  · rw [List.concat_eq_append, List.reverse_append, List.reverse_singleton,
      List.singleton_append, List.cons_append,
      spliceLoop_first_absorbed pos size m (hM m (by simp)),
      spliceLoop_skip pos size M₀.reverse
        (by
          intro e he
          rcases hM e (by simp [List.mem_reverse.mp he]) with heq | ⟨hgt, _⟩
          · omega
          · omega),
      spliceLoop_tail pos size A hA]
    have hlast : lastSize (A ++ (M₀ ++ [m])) = m.size := by
      rw [← List.append_assoc]
      simp [lastSize, List.getLast?_concat]
    rw [hlast]
    simp

theorem sorted_dropWhile_not_lt (t : Int) :
    ∀ l : List Edit, EditsSorted l →
      ∀ x ∈ l.dropWhile (fun e => decide (e.position < t)), t ≤ x.position := by
  intro l
  induction l with
  | nil => intro _ x hx; simp at hx
  | cons e l' ih =>
    intro hl x hx
    rw [List.dropWhile_cons] at hx
    rcases List.pairwise_cons.mp hl with ⟨hhead, htail⟩
    by_cases hc : e.position < t
    · rw [if_pos (by simpa using hc)] at hx
      exact ih htail x hx
    · rw [if_neg (by simpa using hc)] at hx
      rcases List.mem_cons.mp hx with rfl | hx'
      · omega
      · have := hhead x hx'
        omega

theorem sorted_dropWhile_not_le (t : Int) :
    ∀ l : List Edit, EditsSorted l →
      ∀ x ∈ l.dropWhile (fun e => decide (e.position ≤ t)), t < x.position := by
  intro l
  induction l with
  | nil => intro _ x hx; simp at hx
  | cons e l' ih =>
    intro hl x hx
    rw [List.dropWhile_cons] at hx
    rcases List.pairwise_cons.mp hl with ⟨hhead, htail⟩
    by_cases hc : e.position ≤ t
    · rw [if_pos (by simpa using hc)] at hx
      exact ih htail x hx
    · rw [if_neg (by simpa using hc)] at hx
      rcases List.mem_cons.mp hx with rfl | hx'
      · omega
      · have := hhead x hx'
        omega

/-- On a sorted edit list, the regions `A` (before the splice), `M`
(absorbed) and `S` (surviving) of `spliceEdits_spec` exist. -/
theorem spliceEdits_decomp (edits : List Edit) (pos size : Int) (h : EditsSorted edits) :
    ∃ A M S : List Edit, edits = A ++ M ++ S ∧
      (∀ e ∈ A, e.position < pos) ∧
      (∀ e ∈ M, pos ≤ e.position ∧ (e.position = pos ∨ e.position + size ≤ pos)) ∧
      (∀ e ∈ S, pos < e.position ∧ pos < e.position + size) ∧
      spliceEdits edits pos size = A ++ ⟨pos, size + lastSize (A ++ M)⟩ :: S.map (shiftEdit size) := by
  set pA := fun e : Edit => decide (e.position < pos) with hpA
  set θ := max pos (pos - size) with hθ
  set pM := fun e : Edit => decide (e.position ≤ θ) with hpM
  set A := edits.takeWhile pA with hA
  set rest := edits.dropWhile pA with hrest
  set M := rest.takeWhile pM with hM
  set S := rest.dropWhile pM with hS
  have hsplit : edits = A ++ M ++ S := by
    rw [List.append_assoc, hM, hS, List.takeWhile_append_dropWhile, hA, hrest,
      List.takeWhile_append_dropWhile]
  have hrest_sorted : EditsSorted rest := h.sublist (List.dropWhile_sublist pA)
  have hrest_ge : ∀ x ∈ rest, pos ≤ x.position := sorted_dropWhile_not_lt pos edits h
  have hAcond : ∀ e ∈ A, e.position < pos := by
    intro e he
    simpa [hpA] using List.mem_takeWhile_imp he
  have hMcond : ∀ e ∈ M, pos ≤ e.position ∧ (e.position = pos ∨ e.position + size ≤ pos) := by
    intro e he
    have h1 : e.position ≤ θ := by simpa [hpM] using List.mem_takeWhile_imp he
    have h2 : pos ≤ e.position := hrest_ge e ((List.takeWhile_sublist pM).mem he)
    refine ⟨h2, ?_⟩
    rcases eq_or_lt_of_le h2 with heq | hlt
    · exact Or.inl heq.symm
    · right
      rcases le_max_iff.mp (hθ ▸ h1) with hle | hle <;> omega
  have hScond : ∀ e ∈ S, pos < e.position ∧ pos < e.position + size := by
    intro e he
    have h1 : θ < e.position := sorted_dropWhile_not_le θ rest hrest_sorted e he
    constructor <;> omega
  refine ⟨A, M, S, hsplit, hAcond, hMcond, hScond, ?_⟩
  rw [hsplit]
  refine spliceEdits_spec pos size A M S hAcond ?_ hScond
  intro e he
  obtain ⟨hge, hd⟩ := hMcond e he
  rcases hd with heq | habs
  · exact Or.inl heq
  · rcases eq_or_lt_of_le hge with heq2 | hlt2
    · exact Or.inl heq2.symm
    · exact Or.inr ⟨hlt2, habs⟩

theorem spliceEdits_sorted (edits : List Edit) (pos size : Int) (h : EditsSorted edits) :
    EditsSorted (spliceEdits edits pos size) := by
  obtain ⟨A, M, S, hsplit, hAc, hMc, hSc, heq⟩ := spliceEdits_decomp edits pos size h
  rw [heq]
  have hsortA : EditsSorted A := by
    refine h.sublist ?_
    rw [hsplit, List.append_assoc]
    exact List.sublist_append_left _ _
  have hsortS : EditsSorted S := by
    refine h.sublist ?_
    rw [hsplit]
    exact List.sublist_append_right _ _
  rw [EditsSorted, List.pairwise_append]
  refine ⟨hsortA, ?_, ?_⟩
  · rw [List.pairwise_cons]
    refine ⟨?_, ?_⟩
    · intro b hb
      obtain ⟨sEl, hmem, rfl⟩ := List.mem_map.mp hb
      exact (hSc sEl hmem).2
    · exact hsortS.map _ (fun a b hab => by simp [shiftEdit]; omega)
  · intro a ha b hb
    rcases List.mem_cons.mp hb with rfl | hb'
    · exact hAc a ha
    · obtain ⟨sEl, hmem, rfl⟩ := List.mem_map.mp hb'
      have := hAc a ha
      have := (hSc sEl hmem).2
      simp only [shiftEdit]
      omega

theorem lastSize_cons_of_ne_nil (x : Edit) (t : List Edit) (h : t ≠ []) :
    lastSize (x :: t) = lastSize t := by
  rcases t with _ | ⟨y, t'⟩
  · exact absurd rfl h
  · simp [lastSize]

theorem mem_size_le_lastSize :
    ∀ (l : List Edit), List.Pairwise (fun a b : Edit => a.size ≤ b.size) l →
      ∀ a ∈ l, a.size ≤ lastSize l := by
  intro l
  induction l with
  | nil => intro _ a ha; simp at ha
  | cons x t ih =>
    intro hl a ha
    rcases List.pairwise_cons.mp hl with ⟨hhead, htail⟩
    rcases List.mem_cons.mp ha with rfl | ha'
    · rcases t with _ | ⟨y, t'⟩
      · simp [lastSize]
      · rw [lastSize_cons_of_ne_nil _ _ (by simp)]
        have hmem : (y :: t').getLast (by simp) ∈ y :: t' := List.getLast_mem _
        have h1 := hhead _ hmem
        have h2 : lastSize (y :: t') = ((y :: t').getLast (by simp)).size := by
          simp [lastSize, List.getLast?_eq_getLast]
        omega
    · rcases t with _ | ⟨y, t'⟩
      · simp at ha'
      · rw [lastSize_cons_of_ne_nil _ _ (by simp)]
        exact ih htail a ha'

theorem lastSize_nonneg_of_mono (l : List Edit) (h : ∀ e ∈ l, 0 ≤ e.size) :
    0 ≤ lastSize l := by
  rcases List.eq_nil_or_concat l with rfl | ⟨l₀, a, rfl⟩
  · simp [lastSize]
  · rw [List.concat_eq_append]
    have := h a (by simp)
    simp [lastSize, List.getLast?_concat]
    omega

theorem spliceEdits_mono (edits : List Edit) (pos size : Int) (hs : EditsSorted edits)
    (hm : EditsMono edits) (h0 : 0 ≤ size) : EditsMono (spliceEdits edits pos size) := by
  obtain ⟨A, M, S, hsplit, hAc, hMc, hSc, heq⟩ := spliceEdits_decomp edits pos size hs
  obtain ⟨hmono, hnn⟩ := hm
  have hsubA : List.Sublist A edits := by
    rw [hsplit, List.append_assoc]; exact List.sublist_append_left _ _
  have hsubAM : List.Sublist (A ++ M) edits := by
    rw [hsplit]; exact List.sublist_append_left _ _
  have hsubS : List.Sublist S edits := by
    rw [hsplit]; exact List.sublist_append_right _ _
  have habs_nn : 0 ≤ lastSize (A ++ M) :=
    lastSize_nonneg_of_mono _ (fun e he => hnn e (hsubAM.mem he))
  have habs_le : ∀ sEl ∈ S, lastSize (A ++ M) ≤ sEl.size := by
    intro sEl hmem
    rcases List.eq_nil_or_concat (A ++ M) with hnil | ⟨l₀, a, hconc⟩
    · rw [hnil]
      simp only [lastSize, List.getLast?_nil, Option.map_none, Option.getD_none]
      exact hnn sEl (hsubS.mem hmem)
    · have hlast : lastSize (A ++ M) = a.size := by
        rw [hconc, List.concat_eq_append]
        simp [lastSize, List.getLast?_concat]
      rw [hlast]
      have hcross := (List.pairwise_append.mp (by rwa [hsplit] at hmono)).2.2
      exact hcross a (by rw [hconc]; simp) sEl hmem
  have hmem_le : ∀ a ∈ A, a.size ≤ lastSize (A ++ M) := by
    intro a ha
    exact mem_size_le_lastSize (A ++ M) (hmono.sublist hsubAM) a (by simp [ha])
  rw [heq]
  constructor
  · rw [List.pairwise_append]
    refine ⟨hmono.sublist hsubA, ?_, ?_⟩
    · rw [List.pairwise_cons]
      refine ⟨?_, ?_⟩
      · intro b hb
        obtain ⟨sEl, hmem, rfl⟩ := List.mem_map.mp hb
        have := habs_le sEl hmem
        simp only [shiftEdit]
        omega
      · exact (hmono.sublist hsubS).map _ (fun a b hab => by simp [shiftEdit]; omega)
    · intro a ha b hb
      rcases List.mem_cons.mp hb with rfl | hb'
      · have := hmem_le a ha
        simp only
        omega
      · obtain ⟨sEl, hmem, rfl⟩ := List.mem_map.mp hb'
        have hcross := (List.pairwise_append.mp (by rwa [hsplit] at hmono)).2.2
        have := hcross a (by simp [ha]) sEl hmem
        simp only [shiftEdit]
        omega
  · intro e he
    rcases List.mem_append.mp he with heA | heRest
    · exact hnn e (hsubA.mem heA)
    · rcases List.mem_cons.mp heRest with rfl | hb'
      · simp only
        omega
      · obtain ⟨sEl, hmem, rfl⟩ := List.mem_map.mp hb'
        have := hnn sEl (hsubS.mem hmem)
        simp only [shiftEdit]
        omega

theorem lastSize_spliceEdits (edits : List Edit) (pos size : Int) (h : EditsSorted edits) :
    lastSize (spliceEdits edits pos size) = lastSize edits + size := by
  obtain ⟨A, M, S, hsplit, _, _, _, heq⟩ := spliceEdits_decomp edits pos size h
  rcases List.eq_nil_or_concat S with rfl | ⟨S₀, s, rfl⟩
  · rw [heq, hsplit]
    simp only [List.map_nil, List.append_nil]
    have e1 : lastSize (A ++ [(⟨pos, size + lastSize (A ++ M)⟩ : Edit)])
        = size + lastSize (A ++ M) := by
      simp [lastSize, List.getLast?_concat]
    rw [show A ++ [(⟨pos, size + lastSize (A ++ M)⟩ : Edit)]
        = A ++ (⟨pos, size + lastSize (A ++ M)⟩ : Edit) :: [] from rfl] at e1
    rw [e1]
    omega
  · rw [List.concat_eq_append] at heq hsplit
    rw [heq, hsplit, List.map_append, List.map_singleton]
    have e1 : A ++ (⟨pos, size + lastSize (A ++ M)⟩ : Edit) :: (S₀.map (shiftEdit size) ++ [shiftEdit size s])
        = (A ++ ⟨pos, size + lastSize (A ++ M)⟩ :: S₀.map (shiftEdit size)) ++ [shiftEdit size s] := by
      simp
    have e2 : A ++ M ++ (S₀ ++ [s]) = (A ++ M ++ S₀) ++ [s] := by
      simp
    have e3 : lastSize ((A ++ (⟨pos, size + lastSize (A ++ M)⟩ : Edit) :: S₀.map (shiftEdit size)) ++ [shiftEdit size s])
        = s.size + size := by
      rw [lastSize, List.getLast?_concat]
      simp [shiftEdit]
    have e4 : lastSize ((A ++ M ++ S₀) ++ [s]) = s.size := by
      rw [lastSize, List.getLast?_concat]
      simp
    rw [e1, e2, e3, e4]

/-! ### The round trip `originalPosition ∘ currentPosition` -/

theorem origPosLoop_skip (p : Int) :
    ∀ (R : List Edit), (∀ r ∈ R, p < r.position) →
      ∀ rest, origPosLoop p (R.reverse ++ rest) = origPosLoop p rest := by
  intro R
  induction R with
  | nil => intro _ rest; simp
  | cons r R' ih =>
    intro h rest
    have h' : ∀ x ∈ R', p < x.position := fun x hx => h x (by simp [hx])
    rw [List.reverse_cons, List.append_assoc, ih h', List.singleton_append]
    simp only [origPosLoop, if_neg (by have := h r (by simp); omega : ¬ r.position ≤ p)]

theorem origPos_rightmost (L : List Edit) (e : Edit) (R : List Edit) (p : Int)
    (hR : ∀ r ∈ R, p < r.position) (he : e.position ≤ p) :
    origPosLoop p (L ++ e :: R).reverse = p - e.size := by
  rw [show (L ++ e :: R).reverse = R.reverse ++ (e :: L.reverse) by simp,
    origPosLoop_skip p R hR]
  simp only [origPosLoop, if_pos he]

theorem origPos_none (edits : List Edit) (p : Int) (h : ∀ e ∈ edits, p < e.position) :
    origPosLoop p edits.reverse = p := by
  have := origPosLoop_skip p edits h []
  simpa using this

theorem curPosLoop_skip (p : Int) :
    ∀ (R : List Edit), (∀ r ∈ R, p < r.position) →
      ∀ rest passed, curPosLoop (R.reverse ++ rest) passed p = curPosLoop rest (R ++ passed) p := by
  intro R
  induction R with
  | nil => intro _ rest passed; simp
  | cons r R' ih =>
    intro h rest passed
    have h' : ∀ x ∈ R', p < x.position := fun x hx => h x (by simp [hx])
    rw [List.reverse_cons, List.append_assoc, ih h', List.singleton_append]
    simp only [curPosLoop, if_neg (by have := h r (by simp); omega : ¬ r.position ≤ p)]
    simp

theorem curPos_rightmost (L : List Edit) (e : Edit) (R : List Edit) (p : Int)
    (hR : ∀ r ∈ R, p < r.position) (he : e.position ≤ p) :
    curPosLoop (L ++ e :: R).reverse [] p = rollLoop R (p + e.size) e.size := by
  rw [show (L ++ e :: R).reverse = R.reverse ++ (e :: L.reverse) by simp,
    curPosLoop_skip p R hR]
  simp only [curPosLoop, if_pos he, List.append_nil]

theorem curPos_none (edits : List Edit) (p : Int) (h : ∀ e ∈ edits, p < e.position) :
    curPosLoop edits.reverse [] p = p := by
  have := curPosLoop_skip p edits h [] []
  simpa using this

theorem roll_roundtrip :
    ∀ (R L : List Edit) (e : Edit) (p : Int),
      EditsSorted (L ++ e :: R) →
      List.Pairwise (fun a b : Edit => a.size ≤ b.size) (L ++ e :: R) →
      e.position ≤ p + e.size →
      origPosLoop (rollLoop R (p + e.size) e.size) (L ++ e :: R).reverse = p := by
  intro R
  induction R with
  | nil =>
    intro L e p hs _ he
    simp only [rollLoop]
    rw [origPos_rightmost L e [] (p + e.size) (by simp) he]
    omega
  | cons r R' ih =>
    intro L e p hs hm he
    by_cases hstop : p + e.size < r.position
    · simp only [rollLoop, if_pos hstop]
      have hsR : EditsSorted (r :: R') :=
        (List.pairwise_cons.mp (List.pairwise_append.mp hs).2.1).2
      have hR : ∀ x ∈ r :: R', p + e.size < x.position := by
        intro x hx
        rcases List.mem_cons.mp hx with rfl | hx'
        · exact hstop
        · have := (List.pairwise_cons.mp hsR).1 x hx'
          omega
      rw [origPos_rightmost L e (r :: R') (p + e.size) hR he]
      omega
    · simp only [rollLoop, if_neg hstop]
      have harith : p + e.size + r.size - e.size = p + r.size := by ring
      rw [harith]
      have hlist : L ++ e :: r :: R' = (L ++ [e]) ++ r :: R' := by simp
      have hs' := hlist ▸ hs
      have hm' := hlist ▸ hm
      have hesr : e.size ≤ r.size := by
        have := (List.pairwise_append.mp hm').2.2
        exact this e (by simp) r (by simp)
      have hre : r.position ≤ p + r.size := by omega
      have := ih (L ++ [e]) r p hs' hm' hre
      rw [hlist]
      exact this

theorem exists_rightmost (edits : List Edit) (p : Int) :
    (∀ e ∈ edits, p < e.position) ∨
      ∃ L e R, edits = L ++ e :: R ∧ e.position ≤ p ∧ ∀ r ∈ R, p < r.position := by
  induction edits using List.reverseRecOn with
  | nil => left; intro e he; simp at he
  | append_singleton l a ih =>
    by_cases ha : a.position ≤ p
    · right
      exact ⟨l, a, [], by simp, ha, by simp⟩
    · rcases ih with hall | ⟨L, e, R, rfl, he, hR⟩
      · left
        intro x hx
        rcases List.mem_append.mp hx with hx' | hx'
        · exact hall x hx'
        · rw [List.mem_singleton.mp hx']
          omega
      · right
        refine ⟨L, e, R ++ [a], by simp, he, ?_⟩
        intro r hr
        rcases List.mem_append.mp hr with hr' | hr'
        · exact hR r hr'
        · rw [List.mem_singleton.mp hr']
          omega

/-- Round trip of the two position translations, on any edit list whose
stored sizes are non-negative and non-decreasing. -/
theorem roundtrip_of_inv (edits : List Edit) (hs : EditsSorted edits) (hm : EditsMono edits)
    (p : Int) : origPosLoop (curPosLoop edits.reverse [] p) edits.reverse = p := by
  rcases exists_rightmost edits p with hall | ⟨L, e, R, rfl, he, hR⟩
  · rw [curPos_none edits p hall, origPos_none edits p hall]
  · rw [curPos_rightmost L e R p hR he]
    refine roll_roundtrip R L e p hs hm.1 ?_
    have : 0 ≤ e.size := hm.2 e (by simp)
    omega

/-! ### Editor-level invariants over sequences of splices -/

structure SpliceOp where
  position : Nat
  remove : Nat
  insert : List Char
deriving DecidableEq, Repr

def applyOps : Editor → List SpliceOp → Editor
  | ed, [] => ed
  | ed, op :: ops => applyOps (ed.splice op.position op.remove op.insert) ops

/-- Replay of a splice history directly against a string, by the plain
take/insert/drop semantics of each splice. -/
def replayOps : List Char → List SpliceOp → List Char
  | s, [] => s
  | s, op :: ops => replayOps (s.take op.position ++ op.insert ++ s.drop (op.position + op.remove)) ops

/-- Validity of a splice history: every splice stays inside the current
value. -/
def validOpsB : Editor → List SpliceOp → Bool
  | _, [] => true
  | ed, op :: ops =>
    decide (op.position + op.remove ≤ ed.value.length) &&
      validOpsB (ed.splice op.position op.remove op.insert) ops

theorem applyOps_sorted :
    ∀ (ops : List SpliceOp) (ed : Editor), EditsSorted ed.edits →
      EditsSorted (applyOps ed ops).edits := by
  intro ops
  induction ops with
  | nil => intro ed h; exact h
  | cons op ops ih =>
    intro ed h
    exact ih _ (spliceEdits_sorted ed.edits op.position _ h)

theorem applyOps_mono :
    ∀ (ops : List SpliceOp) (ed : Editor), (∀ op ∈ ops, op.remove ≤ op.insert.length) →
      EditsSorted ed.edits → EditsMono ed.edits →
      EditsMono (applyOps ed ops).edits := by
  intro ops
  induction ops with
  | nil => intro ed _ _ h; exact h
  | cons op ops ih =>
    intro ed hops hs hm
    refine ih _ (fun o ho => hops o (by simp [ho])) (spliceEdits_sorted _ _ _ hs) ?_
    refine spliceEdits_mono _ _ _ hs hm ?_
    have := hops op (by simp)
    omega

theorem applyOps_originalValue :
    ∀ (ops : List SpliceOp) (ed : Editor), (applyOps ed ops).originalValue = ed.originalValue := by
  intro ops
  induction ops with
  | nil => intro ed; rfl
  | cons op ops ih => intro ed; rw [applyOps, ih]; rfl

theorem applyOps_value :
    ∀ (ops : List SpliceOp) (ed : Editor), (applyOps ed ops).value = replayOps ed.value ops := by
  intro ops
  induction ops with
  | nil => intro ed; rfl
  | cons op ops ih => intro ed; rw [applyOps, ih]; rfl

theorem applyOps_length :
    ∀ (ops : List SpliceOp) (ed : Editor), validOpsB ed ops = true → EditsSorted ed.edits →
      ((ed.value.length : Int) = (ed.originalValue.length : Int) + lastSize ed.edits) →
      ((applyOps ed ops).value.length : Int)
        = ((applyOps ed ops).originalValue.length : Int) + lastSize (applyOps ed ops).edits := by
  intro ops
  induction ops with
  | nil => intro ed _ _ hlen; exact hlen
  | cons op ops ih =>
    intro ed hv hs hlen
    rw [validOpsB, Bool.and_eq_true, decide_eq_true_iff] at hv
    obtain ⟨hvalid, hv'⟩ := hv
    rw [applyOps]
    refine ih _ hv' (spliceEdits_sorted _ _ _ hs) ?_
    have h1 : (ed.splice op.position op.remove op.insert).value.length
        = op.position + op.insert.length + (ed.value.length - (op.position + op.remove)) := by
      simp only [Editor.splice, List.length_append, List.length_take, List.length_drop]
      omega
    have h2 := lastSize_spliceEdits ed.edits (op.position : Int)
      ((op.insert.length : Int) - op.remove) hs
    have h3 : (ed.splice op.position op.remove op.insert).originalValue = ed.originalValue := rfl
    rw [h1, h3,
      show (ed.splice op.position op.remove op.insert).edits
        = spliceEdits ed.edits op.position ((op.insert.length : Int) - op.remove) from rfl, h2]
    omega

/-- **C3, counterexample.**  The claim "after any finite sequence of
`splice(position, remove, insert)` calls, `originalPosition(currentPosition(p))
== p` holds for every position `p` in the original buffer" is false: after the
single call `splice(0, 1, '')` on the two-character buffer `"ab"`, position
`0` of the original buffer round-trips to `-1`. -/
theorem c3_roundtrip_counterexample :
    (applyOps (Editor.init "ab".data) [⟨0, 1, []⟩]).originalPosition
      ((applyOps (Editor.init "ab".data) [⟨0, 1, []⟩]).currentPosition 0) = -1 ∧
    ((-1 : Int) ≠ 0) := by
  decide

/-- **C3 (amended).**  After any finite sequence of `splice(position, remove,
insert)` calls in which every splice inserts at least as many characters as it
removes, `originalPosition(currentPosition(p)) == p` holds for every position
`p` (in particular for every position in the original buffer). -/
theorem c3_roundtrip_amended (s : List Char) (ops : List SpliceOp)
    (h : ∀ op ∈ ops, op.remove ≤ op.insert.length) (p : Int) :
    (applyOps (Editor.init s) ops).originalPosition
      ((applyOps (Editor.init s) ops).currentPosition p) = p := by
  have hs0 : EditsSorted (Editor.init s).edits := List.Pairwise.nil
  have hm0 : EditsMono (Editor.init s).edits := ⟨List.Pairwise.nil, by intro e he; simp [Editor.init] at he⟩
  have hs : EditsSorted (applyOps (Editor.init s) ops).edits := applyOps_sorted ops _ hs0
  have hm : EditsMono (applyOps (Editor.init s) ops).edits := applyOps_mono ops _ h hs0 hm0
  exact roundtrip_of_inv _ hs hm p

/-- Witness for `c3_roundtrip_amended`: the splice sequence of the
`string-editor.test.js` position tests (all of size ≥ 0), at original
position `12`. -/
theorem c3_roundtrip_amended_witness :
    (∀ op ∈ [(⟨5, 1, "x".data⟩ : SpliceOp), ⟨9, 0, " elephant ".data⟩, ⟨9, 0, ",".data⟩],
      op.remove ≤ op.insert.length) ∧
    (applyOps (Editor.init "abcdefghijklmnop".data)
        [⟨5, 1, "x".data⟩, ⟨9, 0, " elephant ".data⟩, ⟨9, 0, ",".data⟩]).originalPosition
      ((applyOps (Editor.init "abcdefghijklmnop".data)
        [⟨5, 1, "x".data⟩, ⟨9, 0, " elephant ".data⟩, ⟨9, 0, ",".data⟩]).currentPosition 12) = 12 :=
  ⟨by decide, c3_roundtrip_amended "abcdefghijklmnop".data _ (by decide) 12⟩

theorem drop_append_add {α : Type} (u v : List α) (k : Nat) :
    (u ++ v).drop (u.length + k) = v.drop k := by
  rw [← List.drop_drop, List.drop_left]

theorem applyOps_append :
    ∀ (l1 : List SpliceOp) (ed : Editor) (l2 : List SpliceOp),
      applyOps ed (l1 ++ l2) = applyOps (applyOps ed l1) l2 := by
  intro l1
  induction l1 with
  | nil => intro ed l2; rfl
  | cons op l1 ih => intro ed l2; rw [List.cons_append, applyOps, applyOps, ih]

theorem validOpsB_append_split :
    ∀ (l1 : List SpliceOp) (ed : Editor) (l2 : List SpliceOp),
      validOpsB ed (l1 ++ l2) = true →
      validOpsB ed l1 = true ∧ validOpsB (applyOps ed l1) l2 = true := by
  intro l1
  induction l1 with
  | nil => intro ed l2 h; exact ⟨rfl, h⟩
  | cons op l1 ih =>
    intro ed l2 h
    rw [List.cons_append, validOpsB, Bool.and_eq_true] at h
    obtain ⟨hc, hrest⟩ := h
    obtain ⟨h1, h2⟩ := ih _ l2 hrest
    refine ⟨?_, h2⟩
    rw [validOpsB, Bool.and_eq_true]
    exact ⟨hc, h1⟩

/-- Tail-copy invariant tying the recorded edit list to actual buffer
content: beyond some bound `T` at or after every recorded edit, `value` is
`originalValue` shifted by exactly the accumulated offset stored on the
last edit — the observable form of "applying the recorded edits to
`originalValue` yields `value`" outside the spliced region. -/
def TailCopy (ed : Editor) : Prop :=
  ∃ T : Nat, (∀ e ∈ ed.edits, e.position ≤ (T : Int)) ∧
    0 ≤ (T : Int) - lastSize ed.edits ∧
    ed.value.drop T = ed.originalValue.drop ((T : Int) - lastSize ed.edits).toNat

theorem tailCopy_splice (ed : Editor) (op : SpliceOp)
    (hval : op.position + op.remove ≤ ed.value.length)
    (hs : EditsSorted ed.edits) (h : TailCopy ed) :
    TailCopy (ed.splice op.position op.remove op.insert) := by
  obtain ⟨T, hpos, hnn, hdrop⟩ := h
  set σ : Int := (op.insert.length : Int) - op.remove with hσ
  set T' : Nat := max (op.position + op.insert.length) ((T : Int) + σ).toNat with hT'
  have hT'1 : op.position + op.insert.length ≤ T' := le_max_left _ _
  have hT'2 : (T : Int) + σ ≤ (T' : Int) := by
    have h1 : (T : Int) + σ ≤ (((T : Int) + σ).toNat : Int) := Int.self_le_toNat _
    have h2 : ((((T : Int) + σ).toNat : Nat) : Int) ≤ (T' : Int) := by
      exact_mod_cast le_max_right (op.position + op.insert.length) ((T : Int) + σ).toNat
    omega
  have hedits : (ed.splice op.position op.remove op.insert).edits
      = spliceEdits ed.edits (op.position : Int) σ := rfl
  have hls : lastSize (ed.splice op.position op.remove op.insert).edits
      = lastSize ed.edits + σ := by
    rw [hedits]
    exact lastSize_spliceEdits ed.edits _ _ hs
  have hov : (ed.splice op.position op.remove op.insert).originalValue
      = ed.originalValue := rfl
  obtain ⟨A, M, S, hsplit, hA, hM, hS, heq⟩ :=
    spliceEdits_decomp ed.edits (op.position : Int) σ hs
  refine ⟨T', ?_, ?_, ?_⟩
  · intro e he
    rw [hedits, heq] at he
    rcases List.mem_append.mp he with heA | heR
    · have := hA e heA
      omega
    · rcases List.mem_cons.mp heR with rfl | heS
      · show ((op.position : Nat) : Int) ≤ (T' : Int)
        omega
      · obtain ⟨e0, he0, rfl⟩ := List.mem_map.mp heS
        have hp0 : e0.position ≤ (T : Int) := by
          refine hpos e0 ?_
          rw [hsplit]
          exact List.mem_append_right _ he0
        simp only [shiftEdit]
        omega
  · rw [hls]
    omega
  · rw [hls, hov]
    have hulen : (ed.value.take op.position ++ op.insert).length
        = op.position + op.insert.length := by
      rw [List.length_append, List.length_take]
      omega
    set K : Nat := T' - (op.position + op.insert.length) with hK
    have hdropT' : (ed.splice op.position op.remove op.insert).value.drop T'
        = ed.value.drop (K + (op.position + op.remove)) := by
      show ((ed.value.take op.position ++ op.insert)
          ++ ed.value.drop (op.position + op.remove)).drop T' = _
      rw [show T' = (ed.value.take op.position ++ op.insert).length + K from by
        rw [hulen, hK]; omega]
      rw [drop_append_add, List.drop_drop]
      congr 1
      omega
    have hstep2 : ed.value.drop (K + (op.position + op.remove))
        = (ed.value.drop T).drop (K + (op.position + op.remove) - T) := by
      rw [List.drop_drop]
      congr 1
      omega
    rw [hdropT', hstep2, hdrop, List.drop_drop]
    congr 1
    omega

theorem applyOps_tailCopy :
    ∀ (ops : List SpliceOp) (ed : Editor), validOpsB ed ops = true →
      EditsSorted ed.edits → TailCopy ed → TailCopy (applyOps ed ops) := by
  intro ops
  induction ops with
  | nil => intro ed _ _ h; exact h
  | cons op ops ih =>
    intro ed hv hs h
    rw [validOpsB, Bool.and_eq_true, decide_eq_true_iff] at hv
    exact ih _ hv.2 (spliceEdits_sorted _ _ _ hs) (tailCopy_splice ed op hv.1 hs h)

/-- The `StringEditor` data-structure invariant maintained by one `splice`
call on top of an arbitrary valid history, per §4.2 of the spec: the edit
list stays strictly sorted; `originalValue` is untouched; `value` is the
take/insert/drop replay of the whole splice history; the current length is
the original length plus the accumulated offset on the last edit; the
tail-copy invariant (`value` equals `originalValue` shifted by the
accumulated offset beyond the spliced region) holds; and the splice
transforms the edit list edit by edit — edits before the splice position
(`A`) are untouched, edits at the position or swallowed by the removal
(`M`) are absorbed into the new edit, whose stored size is the splice's net
size plus the accumulated offset of everything at or before it
(`lastSize (A ++ M)`), and each surviving edit (`S`) has its position and
accumulated size both incremented by exactly the splice's net size. -/
def SpliceInvariant (s : List Char) (ops : List SpliceOp) (op : SpliceOp) : Prop :=
  EditsSorted (applyOps (Editor.init s) (ops ++ [op])).edits ∧
  (applyOps (Editor.init s) (ops ++ [op])).originalValue = s ∧
  (applyOps (Editor.init s) (ops ++ [op])).value = replayOps s (ops ++ [op]) ∧
  ((applyOps (Editor.init s) (ops ++ [op])).value.length : Int)
    = (s.length : Int) + lastSize (applyOps (Editor.init s) (ops ++ [op])).edits ∧
  TailCopy (applyOps (Editor.init s) (ops ++ [op])) ∧
  (∃ A M S : List Edit,
    (applyOps (Editor.init s) ops).edits = A ++ M ++ S ∧
    (∀ e ∈ A, e.position < (op.position : Int)) ∧
    (∀ e ∈ M, (op.position : Int) ≤ e.position ∧
      (e.position = (op.position : Int) ∨
        e.position + ((op.insert.length : Int) - op.remove) ≤ (op.position : Int))) ∧
    (∀ e ∈ S, (op.position : Int) < e.position ∧
      (op.position : Int) < e.position + ((op.insert.length : Int) - op.remove)) ∧
    (applyOps (Editor.init s) (ops ++ [op])).edits
      = A ++ (⟨(op.position : Int), ((op.insert.length : Int) - op.remove)
            + lastSize (A ++ M)⟩ : Edit)
          :: S.map (shiftEdit ((op.insert.length : Int) - op.remove)))

/-- **C4.**  Every splice operation preserves the `StringEditor` data
structure invariant: for any valid splice history followed by one more
splice, the edit list stays strictly sorted; each stored edit's size is
maintained as the accumulated offset of all splices touching positions at
or before it (edits before the new splice keep their sizes, absorbed edits
fold their accumulated size into the new edit via `lastSize (A ++ M)`, and
every surviving edit's position and size grow by exactly the splice's net
size); and the recorded offsets track the buffers — the current value is
the replay of the history, its length is the original length plus the last
edit's accumulated offset, and beyond the spliced region the value is the
original value shifted by that offset (`TailCopy`). -/
theorem c4_splice_preserves_invariant (s : List Char) (ops : List SpliceOp)
    (op : SpliceOp)
    (h : validOpsB (Editor.init s) (ops ++ [op]) = true) :
    SpliceInvariant s ops op := by
  obtain ⟨h1, h2⟩ := validOpsB_append_split ops (Editor.init s) [op] h
  have hs0 : EditsSorted (Editor.init s).edits := List.Pairwise.nil
  have hsed : EditsSorted (applyOps (Editor.init s) ops).edits := applyOps_sorted ops _ hs0
  have hvalop : op.position + op.remove ≤ (applyOps (Editor.init s) ops).value.length := by
    rw [validOpsB, Bool.and_eq_true, decide_eq_true_iff] at h2
    exact h2.1
  have happ : applyOps (Editor.init s) (ops ++ [op])
      = (applyOps (Editor.init s) ops).splice op.position op.remove op.insert := by
    rw [applyOps_append]
    rfl
  refine ⟨applyOps_sorted _ _ hs0, applyOps_originalValue _ _, applyOps_value _ _, ?_, ?_, ?_⟩
  · have hlen := applyOps_length (ops ++ [op]) (Editor.init s) h hs0
      (by simp [Editor.init, lastSize])
    rwa [applyOps_originalValue] at hlen
  · rw [happ]
    refine tailCopy_splice _ op hvalop hsed (applyOps_tailCopy ops _ h1 hs0 ?_)
    exact ⟨0, by simp [Editor.init], by simp [Editor.init, lastSize],
      by simp [Editor.init, lastSize]⟩
  · obtain ⟨A, M, S, hsplit, hA, hM, hS, heq⟩ :=
      spliceEdits_decomp (applyOps (Editor.init s) ops).edits (op.position : Int)
        ((op.insert.length : Int) - op.remove) hsed
    refine ⟨A, M, S, hsplit, hA, hM, hS, ?_⟩
    rw [happ]
    exact heq

/-- Witness for `c4_splice_preserves_invariant`: the four-splice history of
`string-editor.test.js` (the first three splices as the history, the final
one as the preserved step), valid on `"abcdefghijklmnop"`. -/
theorem c4_splice_preserves_invariant_witness :
    validOpsB (Editor.init "abcdefghijklmnop".data)
      ([⟨5, 1, "x".data⟩, ⟨2, 2, []⟩, ⟨9, 0, " elephant ".data⟩] ++ [⟨9, 0, ",".data⟩])
      = true ∧
    SpliceInvariant "abcdefghijklmnop".data
      [⟨5, 1, "x".data⟩, ⟨2, 2, []⟩, ⟨9, 0, " elephant ".data⟩] ⟨9, 0, ",".data⟩ :=
  ⟨by decide, c4_splice_preserves_invariant "abcdefghijklmnop".data
    [⟨5, 1, "x".data⟩, ⟨2, 2, []⟩, ⟨9, 0, " elephant ".data⟩] ⟨9, 0, ",".data⟩ (by decide)⟩

/-- Sanity check: the "edits a string" test of `string-editor.test.js`. -/
example :
    ((Editor.init "Hello!".data).splice 5 1 ", world.".data).value = "Hello, world.".data := by
  decide

/-- Sanity check: the "finds the original position after several edits" test
of `string-editor.test.js`. -/
example :
    let ed := ((((Editor.init "abcdefghijklmnop".data).splice 5 1 "x".data).splice 2 2
      []).splice 9 0 " elephant ".data).splice 9 0 ",".data
    ed.value = "abexghijk, elephant lmnop".data ∧
    ed.originalPosition 1 = 1 ∧ ed.originalPosition 2 = 4 ∧ ed.originalPosition 21 = 12 ∧
    ed.currentPosition 1 = 1 ∧ ed.currentPosition 4 = 2 ∧ ed.currentPosition 12 = 21 := by
  decide

/-- Sanity check: the mark test of `string-editor.test.js`. -/
example :
    let ed := ((((Editor.init "abcdefg\nhijklmnop".data).splice 5 1 "x".data).splice 2 2
      []).splice 10 0 "\n elephant \n".data).splice 10 0 ",".data
    ed.value = "abexg\nhijk,\n elephant \nlmnop".data ∧
    ed.markOriginalPosition 1 = ⟨1, 0, 1⟩ ∧
    ed.markOriginalPosition 24 = ⟨13, 1, 5⟩ := by
  decide

/-! ## Front-matter splitting (`lib/parse-page.js`)

The divider pattern `/^---\s*$/m` is implemented directly: at a line start,
`---` followed by a greedily backtracking run of `\s` characters such that
the multiline `$` anchor (end of string, or before a line terminator)
matches at its end.  `downFind` renders the greedy backtracking: the largest
whitespace run length at which `$` succeeds wins. -/

/-- Length of the maximal `\s` run of `s` starting at index `i`. -/
def wsRunFrom (s : List Char) (i : Nat) : Nat :=
  ((s.drop i).takeWhile isJsSpace).length

/-- Multiline `$`: matches at the end of the string or before a line
terminator. -/
def dollarAt (s : List Char) (j : Nat) : Bool :=
  match s.get? j with
  | none => true
  | some c => isLineTerm c

/-- Multiline `^`: matches at the start of the string or after a line
terminator. -/
def lineStartAt (s : List Char) (i : Nat) : Bool :=
  if i = 0 then true else (s.get? (i - 1)).any isLineTerm

/-- Largest `k ≤ n` with `f k = true`. -/
def downFind (f : Nat → Bool) : Nat → Option Nat
  | 0 => if f 0 then some 0 else none
  | k + 1 => if f (k + 1) then some (k + 1) else downFind f k

/-- Whether `k` whitespace characters after the `---` at `i`, followed by a
`$` match, are acceptable for the divider pattern. -/
def dividerTailOk (s : List Char) (i k : Nat) : Bool :=
  (jsSlice s (i + 3) (i + 3 + k)).all isJsSpace && dollarAt s (i + 3 + k)

/-- Match of `/^---\s*$/m` at position `i` (the caller checks the `^`
anchor); returns the match length. -/
def dividerMatchAt (s : List Char) (i : Nat) : Option Nat :=
  if s.get? i = some '-' ∧ s.get? (i + 1) = some '-' ∧ s.get? (i + 2) = some '-' then
    (downFind (fun k => dividerTailOk s i k) (wsRunFrom s (i + 3))).map (fun k => 3 + k)
  else none

/-- Scan of the multiline regex search: try every position upward, their
`^` anchor included, and stop at the first match. -/
def dividerScan (s : List Char) : Nat → Nat → Option (Nat × Nat)
  | 0, _ => none
  | fuel + 1, i =>
    if lineStartAt s i then
      match dividerMatchAt s i with
      | some len => some (i, len)
      | none => dividerScan s fuel (i + 1)
    else dividerScan s fuel (i + 1)

/-- `text.match(/^---\s*$/m)`: position and length of the first divider
match. -/
def dividerFirstMatch (s : List Char) : Option (Nat × Nat) :=
  dividerScan s (s.length + 1) 0

/-- The body of the `yamlish` pattern after its optional `---\n` prefix:
`(\s*(#.*)?\n)*\s*[^#\s:]+:`.  The backtracking regex is rendered
deterministically: the comment-or-blank-line repetition can only stop at the
first character that is neither whitespace nor `#`, where a key
(`[^#\s:]+` then `:`) must follow; `.` does not match line terminators, and
a comment must be closed by a literal newline. -/
def yamlishBody (s : List Char) : Nat → Bool
  | 0 => false
  | fuel + 1 =>
    match s.dropWhile isJsSpace with
    | [] => false
    | c :: rest =>
      if c = '#' then
        match rest.dropWhile (fun d => !isLineTerm d) with
        | '\n' :: tail => yamlishBody tail fuel
        | _ => false
      else if c = ':' then false
      else
        match (c :: rest).drop ((c :: rest).takeWhile
            (fun d => !(d = '#' ∨ d = ':' ∨ isJsSpace d))).length with
        | ':' :: _ => true
        | _ => false

/-- The fuzzy front-matter test `/^(---\n)?(\s*(#.*)?\n)*\s*[^#\s:]+:/`. -/
def yamlishTest (s : List Char) : Bool :=
  (if s.take 4 = "---\n".data then yamlishBody (s.drop 4) (s.length + 1) else false) ||
    yamlishBody s (s.length + 1)

/-- `getPageSegments` of `lib/parse-page.js`. -/
def getPageSegments (text : List Char) : List Char × List Char :=
  match dividerFirstMatch text with
  | none => ([], text)
  | some (idx, len) =>
    if idx = 0 then
      match dividerFirstMatch (text.drop (len + 1)) with
      | some (idx2, len2) =>
        (text.take (idx2 + (len + 1)), text.drop (idx2 + (len + 1) + len2 + 1))
      | none => (text, [])
    else if yamlishTest text then
      (text.take idx, text.drop (idx + len + 1))
    else ([], text)

/-- `joinPageSegments` of `lib/parse-page.js`. -/
def joinPageSegments (metaText markdown : List Char) : List Char :=
  if metaText = [] then markdown
  else if metaText.take 4 = "---\n".data then metaText ++ "---\n".data ++ markdown
  else "---\n".data ++ metaText ++ "---\n".data ++ markdown

/-- Sanity check: the two `getPageSegments()` tests of `parse-page.test.js`. -/
example :
    getPageSegments ("---\nsome_key: some_value\na_list:\n  - ok\n  - yep\n  - it\x27s a\n  - list\n---\n"
        ++ "This is some Markdown with [a link](https://asana.com).\n\n---\n\nAfter a section divider\n").data
      = (("---\nsome_key: some_value\na_list:\n  - ok\n  - yep\n  - it\x27s a\n  - list\n").data,
         ("This is some Markdown with [a link](https://asana.com).\n\n---\n\nAfter a section divider\n").data) ∧
    getPageSegments
        "This is some Markdown with [a link](https://asana.com).\n\n---\n\nAfter a section divider\n".data
      = ([], "This is some Markdown with [a link](https://asana.com).\n\n---\n\nAfter a section divider\n".data) := by
  decide

/-! ### Round trip of `getPageSegments` / `joinPageSegments` -/

/-- **C5, counterexample.**  The claim "`joinPageSegments` applied to the pair
returned by `getPageSegments(x)` equals `x` for every document whose
front-matter is absent or a single `---`-delimited block at the start" is
false: for `x = "---\na: 1\n---\n\nbody"` (front-matter block `a: 1`, body
beginning with a blank line) the greedy `\s*$` of the divider pattern
swallows the blank line, and the round trip returns
`"---\na: 1\n---\nbody"` instead. -/
theorem c5_roundtrip_counterexample :
    joinPageSegments (getPageSegments "---\na: 1\n---\n\nbody".data).1
        (getPageSegments "---\na: 1\n---\n\nbody".data).2
      = "---\na: 1\n---\nbody".data ∧
    "---\na: 1\n---\nbody".data ≠ "---\na: 1\n---\n\nbody".data := by
  decide

theorem get?_drop_add {α : Type} (l : List α) (i j : Nat) :
    (l.drop i).get? j = l.get? (i + j) := by
  simp [List.get?_eq_getElem?, List.getElem?_drop]

theorem downFind_eq_some (f : Nat → Bool) :
    ∀ (n k : Nat), k ≤ n → f k = true → (∀ j, k < j → j ≤ n → f j = false) →
      downFind f n = some k := by
  intro n
  induction n with
  | zero =>
    intro k hk hf _
    interval_cases k
    simp [downFind, hf]
  | succ n ih =>
    intro k hk hf hmax
    by_cases hfn : f (n + 1) = true
    · have hkeq : k = n + 1 := by
        by_contra hne
        have hlt : k < n + 1 := by omega
        rw [hmax (n + 1) hlt (le_refl _)] at hfn
        exact Bool.false_ne_true hfn
      subst hkeq
      simp [downFind, hfn]
    · have hk' : k ≤ n := by
        rcases Nat.eq_or_lt_of_le hk with heq | h
        · exact absurd (heq ▸ hf) hfn
        · omega
      rw [downFind, if_neg hfn]
      exact ih k hk' hf (fun j h1 h2 => hmax j h1 (by omega))

theorem downFind_exists (f : Nat → Bool) :
    ∀ (n j : Nat), j ≤ n → f j = true →
      ∃ k, downFind f n = some k ∧ f k = true ∧ k ≤ n := by
  intro n
  induction n with
  | zero =>
    intro j hj hf
    interval_cases j
    exact ⟨0, by simp [downFind, hf], hf, le_refl 0⟩
  | succ n ih =>
    intro j hj hf
    by_cases hfn : f (n + 1) = true
    · exact ⟨n + 1, by simp [downFind, hfn], hfn, le_refl _⟩
    · have hj' : j ≤ n := by
        rcases Nat.eq_or_lt_of_le hj with heq | h
        · exact absurd (heq ▸ hf) hfn
        · omega
      obtain ⟨k, hk, hfk, hkn⟩ := ih j hj' hf
      exact ⟨k, by rw [downFind, if_neg hfn]; exact hk, hfk, by omega⟩

theorem dividerScan_eq_some (s : List Char) :
    ∀ (fuel i₀ j len : Nat), i₀ ≤ j → j < i₀ + fuel →
      lineStartAt s j = true → dividerMatchAt s j = some len →
      (∀ i, i₀ ≤ i → i < j → lineStartAt s i = true → dividerMatchAt s i = none) →
      dividerScan s fuel i₀ = some (j, len) := by
  intro fuel
  induction fuel with
  | zero => intro i₀ j len h1 h2 _ _ _; omega
  | succ fuel ih =>
    intro i₀ j len h1 h2 hls hm hbelow
    rcases Nat.eq_or_lt_of_le h1 with rfl | hlt
    · rw [dividerScan, if_pos hls, hm]
    · rw [dividerScan]
      have step : dividerScan s fuel (i₀ + 1) = some (j, len) :=
        ih (i₀ + 1) j len (by omega) (by omega) hls hm
          (fun i hi1 hi2 => hbelow i (by omega) hi2)
      by_cases hls0 : lineStartAt s i₀ = true
      · rw [if_pos hls0, hbelow i₀ (le_refl _) hlt hls0]
        exact step
      · rw [if_neg hls0]
        exact step

theorem dividerScan_eq_none (s : List Char) :
    ∀ (fuel i₀ : Nat),
      (∀ i, i₀ ≤ i → i < i₀ + fuel → lineStartAt s i = true → dividerMatchAt s i = none) →
      dividerScan s fuel i₀ = none := by
  intro fuel
  induction fuel with
  | zero => intro i₀ _; rfl
  | succ fuel ih =>
    intro i₀ h
    rw [dividerScan]
    have step : dividerScan s fuel (i₀ + 1) = none :=
      ih (i₀ + 1) (fun i hi1 hi2 => h i (by omega) (by omega))
    by_cases hls0 : lineStartAt s i₀ = true
    · rw [if_pos hls0, h i₀ (le_refl _) (by omega) hls0]
      exact step
    · rw [if_neg hls0]
      exact step

theorem takeWhile_get? {α : Type} (p : α → Bool) :
    ∀ (l : List α) (j : Nat), j < (l.takeWhile p).length →
      (l.takeWhile p).get? j = l.get? j := by
  intro l
  induction l with
  | nil => intro j h; simp at h
  | cons a t ih =>
    intro j h
    by_cases hp : p a
    · rw [List.takeWhile_cons_of_pos hp] at h ⊢
      cases j with
      | zero => simp
      | succ j' =>
        simp only [List.get?]
        exact ih j' (by simpa using h)
    · rw [List.takeWhile_cons_of_neg hp] at h
      simp at h

theorem takeWhile_stop {α : Type} (p : α → Bool) :
    ∀ (l : List α), (l.takeWhile p).length < l.length →
      ∃ c, l.get? (l.takeWhile p).length = some c ∧ p c = false := by
  intro l
  induction l with
  | nil => intro h; simp at h
  | cons a t ih =>
    intro h
    by_cases hp : p a
    · rw [List.takeWhile_cons_of_pos hp] at h ⊢
      obtain ⟨c, hc, hpc⟩ := ih (by simpa using h)
      exact ⟨c, by simpa using hc, hpc⟩
    · rw [List.takeWhile_cons_of_neg hp]
      refine ⟨a, by simp, ?_⟩
      simpa using hp

theorem wsRun_all (s : List Char) (i j : Nat) (h : j < wsRunFrom s i) :
    ∃ c, s.get? (i + j) = some c ∧ isJsSpace c = true := by
  have hlen : j < ((s.drop i).takeWhile isJsSpace).length := h
  cases hg : ((s.drop i).takeWhile isJsSpace).get? j with
  | none =>
    rw [List.get?_eq_none] at hg
    omega
  | some c =>
    refine ⟨c, ?_, List.mem_takeWhile_imp (List.get?_mem hg)⟩
    rw [← get?_drop_add, ← takeWhile_get? isJsSpace (s.drop i) j hlen]
    exact hg

theorem wsRun_le (s : List Char) (i j : Nat) (c : Char)
    (hc : s.get? (i + j) = some c) (hws : isJsSpace c = false) : wsRunFrom s i ≤ j := by
  by_contra hlt
  rw [Nat.not_le] at hlt
  obtain ⟨c', hc', hws'⟩ := wsRun_all s i j hlt
  rw [hc] at hc'
  cases hc'
  rw [hws] at hws'
  exact Bool.false_ne_true hws'

theorem lineTerm_isJsSpace (c : Char) (h : isLineTerm c = true) : isJsSpace c = true := by
  rw [isLineTerm] at h
  rw [isJsSpace]
  rcases (by simpa using h : c = '\n' ∨ c = '\r' ∨ c = '\u2028' ∨ c = '\u2029') with rfl | rfl | rfl | rfl <;> simp

theorem drop_append_le {α : Type} :
    ∀ (u : List α) (v : List α) (k : Nat), k ≤ u.length → (u ++ v).drop k = u.drop k ++ v := by
  intro u
  induction u with
  | nil =>
    intro v k h
    have hk0 : k = 0 := by simpa using h
    subst hk0
    simp
  | cons a u' ih =>
    intro v k h
    cases k with
    | zero => simp
    | succ k' => simpa using ih v k' (by simpa using h)

theorem get?_append_add {α : Type} (u v : List α) (k : Nat) :
    (u ++ v).get? (u.length + k) = v.get? k := by
  rw [List.get?_append_right (by omega)]
  congr 1
  omega

theorem jsSlice_add (s : List Char) (a k : Nat) :
    jsSlice s a (a + k) = (s.drop a).take k := by
  rw [jsSlice, ← List.take_drop]

theorem dividerTailOk_drop (s : List Char) (i k : Nat) :
    dividerTailOk s i k = (((s.drop (i + 3)).take k).all isJsSpace
      && match (s.drop (i + 3)).get? k with
         | none => true
         | some c => isLineTerm c) := by
  rw [dividerTailOk, jsSlice_add, dollarAt, get?_drop_add]

/-- A divider match only looks at the suffix from its position, so matching
inside a suffix is matching in the full string at the shifted position. -/
theorem dividerMatchAt_drop (s : List Char) (d i : Nat) :
    dividerMatchAt (s.drop d) i = dividerMatchAt s (d + i) := by
  have hdd : (s.drop d).drop (i + 3) = s.drop (d + i + 3) := by
    rw [List.drop_drop, Nat.add_assoc]
  have htail : (fun k => dividerTailOk (s.drop d) i k)
      = fun k => dividerTailOk s (d + i) k := by
    funext k
    rw [dividerTailOk_drop, dividerTailOk_drop, hdd]
  have hws : wsRunFrom (s.drop d) (i + 3) = wsRunFrom s (d + i + 3) := by
    rw [wsRunFrom, wsRunFrom, hdd]
  simp only [dividerMatchAt]
  rw [get?_drop_add, get?_drop_add, get?_drop_add,
    show d + (i + 1) = d + i + 1 from by omega,
    show d + (i + 2) = d + i + 2 from by omega,
    htail, hws]

/-- First divider match of a document of the form
`"---\n" ++ m ++ "---\n" ++ b`: it sits at position `0`, and its greedy
whitespace run ends `k ≤ |m|` characters into `m`, right after a line
terminator, so `k` is a line start of `m`. -/
theorem divider_first_of_block (m b : List Char) :
    ∃ k, k ≤ m.length ∧
      dividerFirstMatch ("---\n".data ++ (m ++ ("---\n".data ++ b))) = some (0, 3 + k) ∧
      lineStartAt m k = true := by
  have hDlen : ("---\n".data).length = 4 := by decide
  set x := "---\n".data ++ (m ++ ("---\n".data ++ b)) with hx
  have hx0 : x.get? 0 = some '-' := by
    rw [hx, List.get?_append (by decide : (0 : Nat) < ("---\n".data).length)]
    decide
  have hx1 : x.get? 1 = some '-' := by
    rw [hx, List.get?_append (by decide : (1 : Nat) < ("---\n".data).length)]
    decide
  have hx2 : x.get? 2 = some '-' := by
    rw [hx, List.get?_append (by decide : (2 : Nat) < ("---\n".data).length)]
    decide
  have hx3 : x.get? 3 = some '\n' := by
    rw [hx, List.get?_append (by decide : (3 : Nat) < ("---\n".data).length)]
    decide
  have hclose : x.get? (4 + m.length) = some '-' := by
    have h1 := get?_append_add ("---\n".data) (m ++ ("---\n".data ++ b)) m.length
    rw [hDlen] at h1
    have h2 := get?_append_add m ("---\n".data ++ b) 0
    rw [Nat.add_zero] at h2
    rw [hx, h1, h2, List.get?_append (by decide : (0 : Nat) < ("---\n".data).length)]
    decide
  have hf0 : dividerTailOk x 0 0 = true := by
    rw [dividerTailOk_drop, get?_drop_add,
      show (0 : Nat) + 3 + 0 = 3 from rfl, hx3]
    simp only [List.take_zero, List.all_nil, Bool.true_and]
    decide
  have hbound : wsRunFrom x 3 ≤ m.length + 1 := by
    refine wsRun_le x 3 (m.length + 1) '-' ?_ (by decide)
    rw [show 3 + (m.length + 1) = 4 + m.length from by omega]
    exact hclose
  obtain ⟨k, hdf, hfk, hkb⟩ := downFind_exists (fun k => dividerTailOk x 0 k)
    (wsRunFrom x (0 + 3)) 0 (Nat.zero_le _) hf0
  have hkb' : k ≤ wsRunFrom x 3 := by
    rw [show (0 : Nat) + 3 = 3 from rfl] at hkb
    exact hkb
  rw [dividerTailOk_drop, Bool.and_eq_true] at hfk
  obtain ⟨hall, hdollar⟩ := hfk
  rw [get?_drop_add] at hdollar
  have hkm : k ≤ m.length := by
    by_contra hgt
    have hk1 : k = m.length + 1 := by omega
    rw [hk1, show (0 : Nat) + 3 + (m.length + 1) = 4 + m.length from by omega, hclose] at hdollar
    exact absurd hdollar (by decide)
  have hlsm : lineStartAt m k = true := by
    cases k with
    | zero => rw [lineStartAt, if_pos rfl]
    | succ j =>
      have hidx : x.get? (4 + j) = m.get? j := by
        have h1 := get?_append_add ("---\n".data) (m ++ ("---\n".data ++ b)) j
        rw [hDlen] at h1
        rw [hx, h1, List.get?_append (by omega : j < m.length)]
      rw [show (0 : Nat) + 3 + (j + 1) = 4 + j from by omega, hidx] at hdollar
      cases hc : m.get? j with
      | none =>
        rw [hc] at hdollar
        rw [List.get?_eq_none] at hc
        omega
      | some c =>
        rw [hc] at hdollar
        rw [lineStartAt, if_neg (by omega : ¬ (j + 1 = 0)),
          show j + 1 - 1 = j from rfl, hc, Option.any_some]
        exact hdollar
  have hmatch : dividerMatchAt x 0 = some (3 + k) := by
    rw [dividerMatchAt, if_pos ⟨hx0, hx1, hx2⟩, hdf]
    rfl
  refine ⟨k, hkm, ?_, hlsm⟩
  rw [dividerFirstMatch]
  refine dividerScan_eq_some x (x.length + 1) 0 0 (3 + k) (le_refl 0) (by omega)
    (by rw [lineStartAt, if_pos rfl]) hmatch ?_
  intro i h1 h2
  omega

/-- First divider match of `m' ++ "---\n" ++ b` when no line of `m'` begins
with `---`, `m'` is empty or ends with a newline, and the body `b` is empty
or has a non-whitespace character on its first line: the match is the
closing divider at `|m'|`, with length `3` — except that for an empty body
the greedy `\s*` swallows the final newline, giving length `4`. -/
theorem divider_first_closing (m' b : List Char)
    (hm' : m' = [] ∨ m'.getLast? = some '\n')
    (hnodiv : ∀ i, i < m'.length →
      lineStartAt (m' ++ ("---\n".data ++ b)) i = true →
      dividerMatchAt (m' ++ ("---\n".data ++ b)) i = none)
    (hbws : ∀ c ∈ b.takeWhile isJsSpace, isLineTerm c = false)
    (hbne : b ≠ [] → b.takeWhile isJsSpace ≠ b) :
    dividerFirstMatch (m' ++ ("---\n".data ++ b))
      = some (m'.length, if b = [] then 4 else 3) := by
  have hDlen : ("---\n".data).length = 4 := by decide
  set y := m' ++ ("---\n".data ++ b) with hy
  have hyml : ∀ j, j < 4 → y.get? (m'.length + j) = ("---\n".data).get? j := by
    intro j hj
    rw [hy, get?_append_add, List.get?_append (by omega)]
  have hy0 : y.get? m'.length = some '-' := by
    have h := hyml 0 (by omega)
    rw [Nat.add_zero] at h
    rw [h]
    decide
  have hy1 : y.get? (m'.length + 1) = some '-' := by
    rw [hyml 1 (by omega)]
    decide
  have hy2 : y.get? (m'.length + 2) = some '-' := by
    rw [hyml 2 (by omega)]
    decide
  have hlastm : m' ≠ [] → y.get? (m'.length - 1) = some '\n' := by
    intro h
    rcases hm' with rfl | hlast
    · exact absurd rfl h
    · rw [List.getLast?_eq_get?] at hlast
      rw [hy, List.get?_append (by have := List.length_pos.mpr h; omega)]
      exact hlast
  have hbelow : ∀ i, i < m'.length → lineStartAt y i = true → dividerMatchAt y i = none :=
    hnodiv
  have hdrop : y.drop (m'.length + 3) = '\n' :: b := by
    rw [hy, drop_append_add, drop_append_le _ _ 3 (by decide)]
    rfl
  have hw : wsRunFrom y (m'.length + 3) = (b.takeWhile isJsSpace).length + 1 := by
    rw [wsRunFrom, hdrop, List.takeWhile_cons_of_pos (by decide : isJsSpace '\n' = true)]
    simp
  have hfk : ∀ k, dividerTailOk y m'.length k
      = ((('\n' :: b).take k).all isJsSpace &&
          match ('\n' :: b).get? k with
          | none => true
          | some c => isLineTerm c) := by
    intro k
    rw [dividerTailOk_drop, hdrop]
  have hlsy : lineStartAt y m'.length = true := by
    rcases eq_or_ne m' [] with rfl | hne
    · rw [lineStartAt]
      simp
    · have hpos := List.length_pos.mpr hne
      rw [lineStartAt, if_neg (by omega), hlastm hne]
      decide
  have hylen : y.length = m'.length + 4 + b.length := by
    rw [hy]
    simp [hDlen]
    omega
  rcases eq_or_ne b [] with rfl | hbne'
  · have hdf : downFind (fun k => dividerTailOk y m'.length k)
        (wsRunFrom y (m'.length + 3)) = some 1 := by
      rw [show wsRunFrom y (m'.length + 3) = 1 from by rw [hw]; decide]
      refine downFind_eq_some _ 1 1 (le_refl _) ?_ (by intro j h1 h2; omega)
      rw [hfk 1]
      decide
    have hmatch : dividerMatchAt y m'.length = some 4 := by
      rw [dividerMatchAt, if_pos ⟨hy0, hy1, hy2⟩, hdf]
      rfl
    rw [dividerFirstMatch, if_pos rfl]
    exact dividerScan_eq_some y (y.length + 1) 0 m'.length 4 (Nat.zero_le _)
      (by omega) hlsy hmatch (fun i _ h2 => hbelow i h2)
  · have hwlt : (b.takeWhile isJsSpace).length < b.length := by
      have hsub := hbne hbne'
      have hle : (b.takeWhile isJsSpace).length ≤ b.length :=
        (List.takeWhile_sublist _).length_le
      rcases Nat.eq_or_lt_of_le hle with heq | h
      · exact absurd ((List.takeWhile_prefix _).eq_of_length heq) hsub
      · exact h
    have hdf : downFind (fun k => dividerTailOk y m'.length k)
        (wsRunFrom y (m'.length + 3)) = some 0 := by
      refine downFind_eq_some _ _ 0 (Nat.zero_le _) ?_ ?_
      · rw [hfk 0]
        rfl
      · intro j h1 h2
        rw [hw] at h2
        rw [hfk j]
        cases j with
        | zero => omega
        | succ j' =>
          rcases Nat.lt_or_ge j' (b.takeWhile isJsSpace).length with hlt | hge
          · have h3 := takeWhile_get? isJsSpace b j' hlt
            cases hc : (b.takeWhile isJsSpace).get? j' with
            | none =>
              rw [List.get?_eq_none] at hc
              omega
            | some c =>
              have hcb : b.get? j' = some c := h3.symm.trans hc
              rw [show ('\n' :: b).get? (j' + 1) = b.get? j' from rfl, hcb]
              simp [hbws c (List.get?_mem hc)]
          · have hj'eq : j' = (b.takeWhile isJsSpace).length := by omega
            obtain ⟨c, hc, hws⟩ := takeWhile_stop isJsSpace b hwlt
            have hnt : isLineTerm c = false := by
              cases hterm : isLineTerm c
              · rfl
              · rw [lineTerm_isJsSpace c hterm] at hws
                exact absurd hws (by simp)
            rw [show ('\n' :: b).get? (j' + 1) = b.get? j' from rfl, hj'eq, hc]
            simp [hnt]
    have hmatch : dividerMatchAt y m'.length = some 3 := by
      rw [dividerMatchAt, if_pos ⟨hy0, hy1, hy2⟩, hdf]
      rfl
    rw [dividerFirstMatch, if_neg hbne']
    exact dividerScan_eq_some y (y.length + 1) 0 m'.length 3 (Nat.zero_le _)
      (by omega) hlsy hmatch (fun i _ h2 => hbelow i h2)

theorem lineStart_drop (m : List Char) (k i : Nat) (hk : lineStartAt m k = true)
    (h : lineStartAt (m.drop k) i = true) : lineStartAt m (k + i) = true := by
  cases i with
  | zero => rw [Nat.add_zero]; exact hk
  | succ i' =>
    rw [lineStartAt, if_neg (by omega)] at h ⊢
    rw [show i' + 1 - 1 = i' from rfl, get?_drop_add] at h
    rw [show k + (i' + 1) - 1 = k + i' from by omega]
    exact h

/-- **C5 (amended).**  `joinPageSegments` applied to the pair returned by
`getPageSegments x` equals `x` for every document `x` whose front-matter is
absent — no line of `x` matches the divider pattern `/^---\s*$/`, *or* the
first divider match is not at offset 0 and `x` fails the yamlish
front-matter test (so the splitter returns no front matter) — or whose
front-matter is a single `---`-delimited block at the start: opening line
`---`, newline-terminated metadata none of whose lines is itself a divider
line, closing line `---`, provided the Markdown body does not begin with a
whitespace-only line (by the counterexample, the greedy divider pattern
otherwise swallows part of the body). -/
theorem c5_roundtrip_amended (x m b : List Char)
    (hcase :
      (∀ i, i ≤ x.length → lineStartAt x i = true → dividerMatchAt x i = none) ∨
      (∃ idx len, dividerFirstMatch x = some (idx, len) ∧ ¬(idx = 0) ∧
        yamlishTest x = false) ∨
      (x = "---\n".data ++ (m ++ ("---\n".data ++ b)) ∧
        (m = [] ∨ m.getLast? = some '\n') ∧
        (∀ i, i < m.length → lineStartAt m i = true →
          dividerMatchAt x (4 + i) = none) ∧
        (∀ c ∈ b.takeWhile isJsSpace, isLineTerm c = false) ∧
        (b ≠ [] → b.takeWhile isJsSpace ≠ b))) :
    joinPageSegments (getPageSegments x).1 (getPageSegments x).2 = x := by
  have hDlen : ("---\n".data).length = 4 := by decide
  rcases hcase with hA | hA' | ⟨hxeq, hm, hnodiv, hbws, hbne⟩
  · have hnone : dividerFirstMatch x = none := by
      rw [dividerFirstMatch]
      exact dividerScan_eq_none x (x.length + 1) 0 (fun i h1 h2 hls => hA i (by omega) hls)
    simp only [getPageSegments, hnone]
    rw [joinPageSegments, if_pos rfl]
  · obtain ⟨idx, len, hf, hidx, hy⟩ := hA'
    simp only [getPageSegments, hf]
    rw [if_neg hidx, if_neg (by rw [hy]; decide : ¬(yamlishTest x = true))]
    rw [joinPageSegments, if_pos rfl]
  · subst hxeq
    obtain ⟨k, hkm, hfirst, hlsm⟩ := divider_first_of_block m b
    have hdropx : ("---\n".data ++ (m ++ ("---\n".data ++ b))).drop (3 + k + 1)
        = m.drop k ++ ("---\n".data ++ b) := by
      rw [show 3 + k + 1 = ("---\n".data).length + k from by rw [hDlen]; omega]
      rw [drop_append_add, drop_append_le m _ k hkm]
    have hm' : m.drop k = [] ∨ (m.drop k).getLast? = some '\n' := by
      rcases eq_or_ne (m.drop k) [] with h | h
      · exact Or.inl h
      · right
        rcases hm with rfl | hlast
        · rw [List.drop_nil] at h
          exact absurd rfl h
        · conv at hlast => rw [← List.take_append_drop k m]
          rw [List.getLast?_append_of_ne_nil _ h] at hlast
          exact hlast
    have hnodiv' : ∀ i, i < (m.drop k).length →
        lineStartAt (m.drop k ++ ("---\n".data ++ b)) i = true →
        dividerMatchAt (m.drop k ++ ("---\n".data ++ b)) i = none := by
      intro i hi hls
      have hilen : k + i < m.length := by
        rw [List.length_drop] at hi
        omega
      have hlsmk : lineStartAt (m.drop k) i = true := by
        cases i with
        | zero => rw [lineStartAt, if_pos rfl]
        | succ j =>
          rw [lineStartAt, if_neg (by omega)] at hls ⊢
          rw [show j + 1 - 1 = j from rfl] at hls ⊢
          rw [List.get?_append
            (by rw [List.length_drop]; omega : j < (m.drop k).length)] at hls
          exact hls
      have hmain := hnodiv (k + i) hilen (lineStart_drop m k i hlsm hlsmk)
      have hconv : dividerMatchAt (m.drop k ++ ("---\n".data ++ b)) i
          = dividerMatchAt ("---\n".data ++ (m ++ ("---\n".data ++ b))) (4 + k + i) := by
        rw [← hdropx, show (3 + k + 1 : Nat) = 4 + k from by omega, dividerMatchAt_drop]
      rw [hconv, show 4 + k + i = 4 + (k + i) from by omega]
      exact hmain
    have hclosing := divider_first_closing (m.drop k) b hm' hnodiv' hbws hbne
    have hassoc : "---\n".data ++ (m ++ ("---\n".data ++ b))
        = ("---\n".data ++ m) ++ ("---\n".data ++ b) := by simp
    have htake : ("---\n".data ++ (m ++ ("---\n".data ++ b))).take
        ((m.drop k).length + (3 + k + 1)) = "---\n".data ++ m := by
      rw [hassoc, List.take_left']
      rw [List.length_append, List.length_drop, hDlen]
      omega
    rcases eq_or_ne b [] with rfl | hbne'
    · simp only [getPageSegments, hfirst, hdropx, hclosing, eq_self_iff_true, if_true]
      have hdrop2 : ("---\n".data ++ (m ++ ("---\n".data ++ []))).drop
          ((m.drop k).length + (3 + k + 1) + 4 + 1) = [] := by
        refine List.drop_eq_nil_of_le ?_
        simp [hDlen, List.length_drop]
        omega
      rw [htake, hdrop2, joinPageSegments,
        if_neg (by simp : ¬ ("---\n".data ++ m = [])),
        if_pos (List.take_left' hDlen)]
      simp
    · simp only [getPageSegments, hfirst, hdropx, hclosing, eq_self_iff_true, if_true,
        if_neg hbne']
      have hdrop2 : ("---\n".data ++ (m ++ ("---\n".data ++ b))).drop
          ((m.drop k).length + (3 + k + 1) + 3 + 1) = b := by
        rw [show ("---\n".data ++ (m ++ ("---\n".data ++ b)))
            = (("---\n".data ++ m) ++ "---\n".data) ++ b from by simp]
        rw [List.drop_left']
        simp [hDlen, List.length_drop]
        omega
      rw [htake, hdrop2, joinPageSegments,
        if_neg (by simp : ¬ ("---\n".data ++ m = [])),
        if_pos (List.take_left' hDlen)]
      simp

/-- Witness for `c5_roundtrip_amended`: the document
`"---\nkey: value\n---\nBody text\n"`, a single `---`-delimited block
followed by a body whose first line has text on it. -/
theorem c5_roundtrip_amended_witness :
    ("---\nkey: value\n---\nBody text\n".data
        = "---\n".data ++ ("key: value\n".data ++ ("---\n".data ++ "Body text\n".data)) ∧
      ("key: value\n".data = [] ∨ ("key: value\n".data).getLast? = some '\n') ∧
      (∀ i, i < ("key: value\n".data).length → lineStartAt "key: value\n".data i = true →
        dividerMatchAt "---\nkey: value\n---\nBody text\n".data (4 + i) = none) ∧
      (∀ c ∈ ("Body text\n".data).takeWhile isJsSpace, isLineTerm c = false) ∧
      ("Body text\n".data ≠ [] → ("Body text\n".data).takeWhile isJsSpace ≠ "Body text\n".data)) ∧
    joinPageSegments (getPageSegments "---\nkey: value\n---\nBody text\n".data).1
        (getPageSegments "---\nkey: value\n---\nBody text\n".data).2
      = "---\nkey: value\n---\nBody text\n".data :=
  ⟨by decide, c5_roundtrip_amended "---\nkey: value\n---\nBody text\n".data
    "key: value\n".data "Body text\n".data (Or.inr (Or.inr (by decide)))⟩

/-! ## Scalar boundary oracle (`lib/check.js`:
`findProbableEndOfScalar`, `findProbableEndOfPlainScalar`,
`findProbableEndOfQuotedScalar`, `isIndented`, `findNextNonSpace`)

`quoteType` is `Option Char` (`none` models JavaScript `null`), the `start`
argument of the guarded entry point is `Int` (so the negative case is
representable), and `indent` is `Option Nat` (`none` models `Infinity`).
JavaScript loops are modelled with fuel; every `while` here advances its
cursor by at least one on each pass, so `s.length + 2` passes always
suffice and the fuel-out branch is unreachable from the wrappers. -/

/-- `isIndented(string, n, start)` of `lib/check.js`: the characters from
`start` up to (exclusive) `min n (length - start)` are all spaces or tabs.
The upper bound of the loop is `n` itself, not `start + n`, exactly as in
the source. -/
def isIndented (s : List Char) (n : Int) (start : Nat) : Bool :=
  let len : Int := (s.length : Int) - start
  let n2 : Int := if n > len then len else n
  if n2 ≤ start then true
  else (List.range' start (n2.toNat - start)).all
    (fun i => s.get? i = some ' ' ∨ s.get? i = some '\t')

/-- `findNextNonSpace(string, start)` of `lib/check.js`: index of the first
character at or after `start` that is neither a space nor a tab, `-1` if
none. -/
def findNextNonSpace (s : List Char) (start : Nat) : Int :=
  match (s.drop start).findIdx? (fun c => ¬(c = ' ' ∨ c = '\t')) with
  | some i => ((start + i : Nat) : Int)
  | none => -1

/-- Length of the run of backslashes at the end of `l` — the length of the
match of `/\\+$/` (`endsWithBackslashes` in `lib/check.js`), `0` when that
regex does not match. -/
def trailingBackslashes (l : List Char) : Nat :=
  (l.reverse.takeWhile (fun c => c = '\\')).length

/-- The second group of `lineAfterQuotedScalar =
`/^(\s*)(-\s|-\s\w+\s*:\s|\w+\s*:\s|\u\x7b0000\x7d|$)/u`` tested at the
position right after the leading whitespace run.  The alternation is
deterministic there: each alternative starts with `-`, a word character,
`NUL` or end-of-input, none of which is a whitespace character, so
backtracking `\s*` to a shorter run can never help, and the second
alternative is subsumed by the first. -/
def lineAfterQuotedScalarTok (r : List Char) : Bool :=
  match r with
  | [] => true
  | c :: rest =>
    if c = '\u0000' then true
    else if c = '-' then rest.head?.any isJsSpace
    else
      let w := r.takeWhile isJsWord
      if w = [] then false
      else
        match (r.drop w.length).dropWhile isJsSpace with
        | ':' :: d :: _ => isJsSpace d
        | _ => false

/-- `nextLine.match(lineAfterQuotedScalar)`: `some g1len` when the regex
matches, where `g1len` is the length of the first group (the leading
whitespace run); `none` when it does not match. -/
def lineAfterQuotedScalarMatch (t : List Char) : Option Nat :=
  let j := (t.takeWhile isJsSpace).length
  if lineAfterQuotedScalarTok (t.drop j) then some j else none

/-- `k <= indent` where `indent : Option Nat` models a possibly-`Infinity`
indentation bound. -/
def indentLE (k : Nat) : Option Nat → Bool
  | none => true
  | some n => k ≤ n

/-- The `while (start > -1)` loop of `findProbableEndOfQuotedScalar`
(`lib/check.js` lines 740–803), on fuel.  `start = -1` is only ever
assigned immediately before the loop exits and returns `[-1, true]`, so the
loop variable stays a `Nat` and that assignment is modelled by returning
`(-1, true)` directly.  A `quoteType` other than `'` or `"` would loop
forever in the source (neither branch advances `start`); here it spins the
fuel down, and the guarded entry point never produces it. -/
def findProbableEndOfQuotedScalarGo (s : List Char) (q : Char) (exact : Bool)
    (indent : Option Nat) : Nat → Nat → Int × Bool
  | 0, _ => (-1, true)
  | fuel + 1, start =>
    let nextQuote := idxOfFrom s q start
    let afterPeek : Int × Bool :=
      if nextQuote > -1 then
        if q = '\'' then
          if charAt s (nextQuote + 1) ≠ some '\'' then (nextQuote, true)
          else findProbableEndOfQuotedScalarGo s q exact indent fuel (nextQuote.toNat + 2)
        else if q = '"' then
          if trailingBackslashes (jsSlice s start nextQuote.toNat) % 2 = 0 then (nextQuote, true)
          else findProbableEndOfQuotedScalarGo s q exact indent fuel (nextQuote.toNat + 1)
        else findProbableEndOfQuotedScalarGo s q exact indent fuel start
      else (-1, true)
    if exact then afterPeek
    else
      let nextBreak := idxOfFrom s '\n' start
      if nextBreak = -1 ∧ nextQuote = -1 then ((s.length : Int), false)
      else if nextBreak > -1 then
        let peeked : Option (Int × Bool) :=
          if nextQuote = -1 ∨ nextQuote > nextBreak then
            match lineAfterQuotedScalarMatch
                (jsSlice s (nextBreak.toNat + 1) (nextBreak.toNat + 100)) with
            | some g1 => if indentLE g1 indent then some (nextBreak, false) else none
            | none => none
          else none
        match peeked with
        | some r => r
        | none =>
          if nextQuote > nextBreak then
            findProbableEndOfQuotedScalarGo s q exact indent fuel (nextBreak.toNat + 1)
          else afterPeek
      else afterPeek

/-- `findProbableEndOfQuotedScalar(string, quoteType, start, exact, indent)`
of `lib/check.js`. -/
def findProbableEndOfQuotedScalar (s : List Char) (q : Char) (start : Nat)
    (exact : Bool) (indent : Option Nat) : Int × Bool :=
  findProbableEndOfQuotedScalarGo s q exact indent (s.length + 2) start

/-- First match of `/(:\s|\s#|\n|$)/` against a string: the match index and
whether the matched group is exactly `"\n"` (the alternation is ordered, so
at a newline followed by `#` the second alternative `\s#` wins and the
group is `"\n#"`, not `"\n"` — as in the source). -/
def plainEndSearch : List Char → Nat × Bool
  | [] => (0, false)
  | c :: rest =>
    if c = ':' ∧ rest.head?.any isJsSpace then (0, false)
    else if isJsSpace c ∧ rest.head? = some '#' then (0, false)
    else if c = '\n' then (0, true)
    else
      let p := plainEndSearch rest
      (p.1 + 1, p.2)

/-- The `while (true)` loop of `findProbableEndOfPlainScalar`
(`lib/check.js`), on fuel; `lastState` carries
`(lastOffset, lastPossibleEnd.index)` when `lastPossibleEnd` is set. -/
def findProbableEndOfPlainScalarGo (s : List Char) :
    Nat → Nat → Option (Nat × Nat) → Int × Bool
  | 0, _, _ => (-1, true)
  | fuel + 1, offset, lastState =>
    let p := plainEndSearch (s.drop offset)
    if p.2 = false then
      match lastState with
      | some (lo, li) => (((lo + li : Nat) : Int), true)
      | none => (((offset + p.1 : Nat) : Int), true)
    else
      let offset2 := offset + p.1 + 1
      if isIndented (s.drop offset2) 1 0 = false then (((offset + p.1 : Nat) : Int), true)
      else findProbableEndOfPlainScalarGo s fuel offset2 (some (offset, p.1))

/-- `findProbableEndOfPlainScalar(string, start)` of `lib/check.js`. -/
def findProbableEndOfPlainScalar (s : List Char) (start : Nat) : Int × Bool :=
  findProbableEndOfPlainScalarGo s (s.length + 2) start none

/-- `findProbableEndOfScalar(string, quoteType, start, exact, indent)` of
`lib/check.js` lines 676–689, with its two `TypeError` guards as the
`Except.error` branch. -/
def findProbableEndOfScalar (s : List Char) (quoteType : Option Char)
    (start : Int) (exact : Bool) (indent : Option Nat) : Except String (Int × Bool) :=
  if ¬(quoteType = none ∨ quoteType = some '\'' ∨ quoteType = some '"') then
    .error "TypeError: quoteType must be null, backquote-quote, or double-quote"
  else if start < 0 then
    .error "TypeError: start must be >= 0"
  else
    match quoteType with
    | none => .ok (findProbableEndOfPlainScalar s start.toNat)
    | some q => .ok (findProbableEndOfQuotedScalar s q start.toNat exact indent)

/-- `true` on the `Except.ok` branch. -/
def exceptOk {ε α : Type} : Except ε α → Bool
  | .ok _ => true
  | .error _ => false

instance exceptDecEq {ε α : Type} [DecidableEq ε] [DecidableEq α] :
    DecidableEq (Except ε α)
  | .ok a, .ok b =>
    if h : a = b then .isTrue (h ▸ rfl) else .isFalse (fun hc => h (Except.ok.inj hc))
  | .error e, .error f =>
    if h : e = f then .isTrue (h ▸ rfl) else .isFalse (fun hc => h (Except.error.inj hc))
  | .ok _, .error _ => .isFalse (fun hc => Except.noConfusion hc)
  | .error _, .ok _ => .isFalse (fun hc => Except.noConfusion hc)

/-- `indexOf` never returns anything below `-1`. -/
theorem idxOfFrom_ge_neg_one (s : List Char) (c : Char) (start : Nat) :
    -1 ≤ idxOfFrom s c start := by
  unfold idxOfFrom
  rcases h : (s.drop start).findIdx? (fun d => d = c) with _ | i
  · simp only [h]
    omega
  · simp only [h]
    omega

/-- One unrolling of the quoted-scalar loop when no quote of the requested
type occurs at or after `start`: the loop runs at most one pass. -/
theorem quotedScalarGo_noQuote (s : List Char) (q : Char) (exact : Bool)
    (indent : Option Nat) (fuel start : Nat)
    (hq : idxOfFrom s q start = -1) :
    findProbableEndOfQuotedScalarGo s q exact indent (fuel + 1) start =
      if exact then (-1, true)
      else
        if idxOfFrom s '\n' start = -1 then ((s.length : Int), false)
        else
          match lineAfterQuotedScalarMatch
              (jsSlice s ((idxOfFrom s '\n' start).toNat + 1)
                ((idxOfFrom s '\n' start).toNat + 100)) with
          | some g1 =>
            if indentLE g1 indent then (idxOfFrom s '\n' start, false) else (-1, true)
          | none => (-1, true) := by
  have h1 : ¬((-1 : Int) > -1) := by omega
  rcases exact with _ | _
  · by_cases hnb : idxOfFrom s '\n' start = -1
    · simp [findProbableEndOfQuotedScalarGo, hq, hnb]
    · have hge := idxOfFrom_ge_neg_one s '\n' start
      have hgt : idxOfFrom s '\n' start > -1 := by omega
      have hlt : ¬((-1 : Int) > idxOfFrom s '\n' start) := by omega
      cases hmm : lineAfterQuotedScalarMatch
          (jsSlice s ((idxOfFrom s '\n' start).toNat + 1)
            ((idxOfFrom s '\n' start).toNat + 100)) with
      | none => simp [findProbableEndOfQuotedScalarGo, hq, hnb, hgt, hmm, hlt, h1]
      | some g1 =>
        by_cases hle : indentLE g1 indent = true
        · simp [findProbableEndOfQuotedScalarGo, hq, hnb, hgt, hmm, hle]
        · simp [findProbableEndOfQuotedScalarGo, hq, hnb, hgt, hmm, hle, hlt, h1]
  · simp [findProbableEndOfQuotedScalarGo, hq, h1]

/-- **C6 (counterexample).**  On `"abc\ndef"` with `quoteType = '"'`,
`start = 0` and `exact = false`, the search exhausts (the string contains
no double quote at all), yet the function returns `(-1, true)` — not
`(length, false) = (7, false)` as the spec states for `exact = false`:
because the string contains a newline, the code takes the peek-ahead path
and falls through to the `start = -1` exit. -/
theorem c6_exhaustion_counterexample :
    idxOfFrom "abc\ndef".data '"' 0 = -1 ∧
    findProbableEndOfQuotedScalar "abc\ndef".data '"' 0 false none ≠
      (("abc\ndef".data.length : Int), false) ∧
    findProbableEndOfQuotedScalar "abc\ndef".data '"' 0 false none = (-1, true) := by
  decide

/-- **C6 (amended).**  When no quote of the requested type occurs at or
after `start`, `findProbableEndOfQuotedScalar` returns: `(-1, true)` when
`exact = true`; `(length, false)` when `exact = false` and the string has
no newline at or after `start`; and otherwise (`exact = false` with a
newline present) `(nextBreak, false)` if the line after the first newline
matches the `lineAfterQuotedScalar` pattern within the indent bound, else
`(-1, true)`. -/
theorem c6_exhaustion_amended (s : List Char) (q : Char) (start : Nat)
    (exact : Bool) (indent : Option Nat)
    (hq : idxOfFrom s q start = -1) :
    findProbableEndOfQuotedScalar s q start exact indent =
      if exact then (-1, true)
      else
        if idxOfFrom s '\n' start = -1 then ((s.length : Int), false)
        else
          match lineAfterQuotedScalarMatch
              (jsSlice s ((idxOfFrom s '\n' start).toNat + 1)
                ((idxOfFrom s '\n' start).toNat + 100)) with
          | some g1 =>
            if indentLE g1 indent then (idxOfFrom s '\n' start, false) else (-1, true)
          | none => (-1, true) := by
  rw [findProbableEndOfQuotedScalar]
  exact quotedScalarGo_noQuote s q exact indent (s.length + 1) start hq

/-- Witness for `c6_exhaustion_amended` at `"abc\ndef"`, `quoteType '"'`,
`start 0`, `exact = false`, `indent 0`: the newline is present and the
next line `"def"` does not look like YAML, so the result is `(-1, true)`. -/
theorem c6_exhaustion_amended_witness :
    idxOfFrom "abc\ndef".data '"' 0 = -1 ∧
    findProbableEndOfQuotedScalar "abc\ndef".data '"' 0 false (some 0) = (-1, true) :=
  ⟨by decide,
    (c6_exhaustion_amended "abc\ndef".data '"' 0 false (some 0) (by decide)).trans
      (by decide)⟩

/-- **C10.**  `findProbableEndOfScalar` raises a `TypeError` if and only if
`quoteType` is neither `null` nor `'` nor `"`, or `start` is negative; on
every argument satisfying the guard it returns a `(position, exact)` pair.
(The `typeof start !== 'number'` half of the guard is not representable in
this typed embedding, where `start` is always a number.) -/
theorem c10_scalar_typeerror_iff (s : List Char) (quoteType : Option Char)
    (start : Int) (exact : Bool) (indent : Option Nat) :
    exceptOk (findProbableEndOfScalar s quoteType start exact indent) = false ↔
      (¬(quoteType = none ∨ quoteType = some '\'' ∨ quoteType = some '"') ∨
        start < 0) := by
  unfold findProbableEndOfScalar
  by_cases hqt : quoteType = none ∨ quoteType = some '\'' ∨ quoteType = some '"'
  · by_cases hst : start < 0
    · simp [hqt, hst, exceptOk]
    · rcases hqt with rfl | rfl | rfl <;> simp [hst, exceptOk]
  · simp [hqt, exceptOk]

/-! ## Batch (`cli/batch.js`)

`unreadableErrors` is built with `new Set('ENOENT', 'EPERM')`.  The `Set`
constructor takes a single iterable: the second argument is discarded and
the first — the *string* `'ENOENT'` — is iterated character by character,
so the set holds the one-character strings `"E"`, `"N"`, `"O"`, `"T"`. -/

/-- `new Set(s)` for a string `s`: the distinct one-character strings of
`s`, in first-insertion order. -/
def jsSetOfString (s : List Char) : List (List Char) :=
  s.foldl (fun acc c => if acc.contains [c] then acc else acc ++ [[c]]) []

/-- `unreadableErrors` of `cli/batch.js` lines 10–13. -/
def unreadableErrors : List (List Char) :=
  jsSetOfString "ENOENT".data

/-- `unreadableErrors.has(code)`. -/
def unreadableErrorsHas (code : List Char) : Bool :=
  unreadableErrors.contains code

/-- The mutable summary record of a `Batch`. -/
structure BatchSummary where
  files : Nat
  errors : Nat
  warnings : Nat
  fixed : Nat
  unreadablePaths : List (List Char)

/-- `Batch.checkFile` (`cli/batch.js` lines 61–89).  The inner
`check.checkFile` call is abstracted by `outcome`: `Except.ok levels` is a
result whose issues have the given levels, `Except.error code` a rejected
promise whose error has the given `code` property.  Returns the
result-or-exception together with the summary after the `finally` block
(which increments `files` on every path, including rethrow). -/
def batchCheckFile (summary : BatchSummary) (filePath : List Char)
    (outcome : Except (List Char) (List (List Char))) :
    Except (List Char) (Option (List (List Char))) × BatchSummary :=
  match outcome with
  | .ok levels =>
    let s2 := levels.foldl
      (fun acc lv =>
        if lv = "error".data then { acc with errors := acc.errors + 1 }
        else if lv = "fixed".data then { acc with fixed := acc.fixed + 1 }
        else { acc with warnings := acc.warnings + 1 })
      summary
    (.ok (some levels), { s2 with files := s2.files + 1 })
  | .error code =>
    if unreadableErrorsHas code then
      -- `this.summary.unreadablePaths` is an Array, which has no `.add`
      -- method: the catch body itself throws a TypeError before reaching
      -- `errors += 1` / `return null`; `finally` still runs.
      (.error "TypeError: this.summary.unreadablePaths.add is not a function".data,
        { summary with files := summary.files + 1 })
    else
      (.error code, { summary with files := summary.files + 1 })

/-- **C7 (code bug).**  A file-read error with `code === 'ENOENT'` (or
`'EPERM'`) is *not* swallowed by `Batch.checkFile`: `unreadableErrors` was
built as `new Set('ENOENT', 'EPERM')`, which iterates the string
`'ENOENT'` into the one-character members `"E"`, `"N"`, `"O"`, `"T"`, so
`has('ENOENT')` and `has('EPERM')` are false and the error is rethrown —
the path is never recorded in `unreadablePaths`, the error count is not
incremented, `null` is not returned, and the batch aborts.  (Even for a
hypothetical matching code, `unreadablePaths` is an `Array`, whose missing
`.add` method would throw a `TypeError`.) -/
theorem c7_enoent_propagates (summary : BatchSummary) (filePath : List Char) :
    unreadableErrors = ["E".data, "N".data, "O".data, "T".data] ∧
    unreadableErrorsHas "ENOENT".data = false ∧
    unreadableErrorsHas "EPERM".data = false ∧
    (batchCheckFile summary filePath (.error "ENOENT".data)).1
      = .error "ENOENT".data ∧
    (batchCheckFile summary filePath (.error "ENOENT".data)).2
      = { summary with files := summary.files + 1 } := by
  refine ⟨by decide, by decide, by decide, ?_, ?_⟩ <;>
    simp [batchCheckFile, show unreadableErrorsHas "ENOENT".data = false from by decide]

/-! ## lint (`lib/check.js`)

The js-yaml parser is an abstract collaborator: a run of `lint` is driven
by a *trace* of parser callbacks (`listener('open', state)`,
`listener('close', state)`, `onWarning(warning)`) carrying the fields the
callbacks actually read, followed by the parse *outcome* (normal return,
or a thrown `YAMLException` with a reason and an optional mark).  The
mutable closure state of `lint` is the `Session`.  JavaScript-internal
exceptions thrown inside the callbacks (`TypeError` on a null
`previousState`, `RangeError` from `' '.repeat` of a negative count) have
no `mark` and are modelled by the `Except.error` channel of the trace
runner. -/

structure Issue where
  message : List Char
  level : List Char
  mark : Option Mark
deriving DecidableEq, Repr

structure LintOptions where
  fix : Bool
  debug : Bool
  removeInvalidCharacters : Bool
  write : Option Bool
deriving DecidableEq, Repr

inductive PEvent where
  | eopen (position : Nat) (lineIndent : Nat)
  | eclose (anchor : Option (List Char)) (kind : Option (List Char)) (position : Nat)
  | ewarn (message : List Char) (markPosition : Nat)
deriving DecidableEq, Repr

inductive POutcome where
  | ok
  | thrown (reason : List Char) (mark : Option Mark)
deriving DecidableEq, Repr

structure LintResult where
  issues : List Issue
  fixed : Option (List Char)
deriving DecidableEq, Repr

/-- The closure state of one `lint` run.  `previousStatePosition` models
`previousState` (`null` before the first listener call); only its
`position` field is ever read.  `tokenIndentWarnings` holds indices into
`issues` (the JS array holds references to the warning objects, which the
close handler mutates in place).  `input` is `state.input` as the
callbacks see it. -/
structure Session where
  stateEditor : Editor
  fixedEditor : Editor
  issues : List Issue
  previousStatePosition : Option Nat
  unquotedVariablePosition : Int
  atSignPosition : Int
  lastTokenPosition : Int
  tokenIndent : Nat
  tokenIndentWarnings : List Nat
  input : List Char

/-- js-yaml input normalization at the top of `loadDocuments`: append `\n`
unless the input is empty or already ends in `\n`/`\r`, strip a leading
BOM, then append the `\0` terminator. -/
def jsYamlNormalize (s : List Char) : List Char :=
  let s1 := if s ≠ [] ∧ ¬(s.getLast? = some '\n' ∨ s.getLast? = some '\r')
    then s ++ ['\n'] else s
  let s2 := if s1.head? = some '\uFEFF' then s1.drop 1 else s1
  s2 ++ ['\u0000']

/-- JavaScript `String.prototype.slice(start)` with an `Int` start: a
negative start counts from the end (clamped at 0). -/
def jsSliceFromInt (s : List Char) (a : Int) : List Char :=
  if a < 0 then s.drop ((s.length : Int) + a).toNat else s.drop a.toNat

/-- `string.toLowerCase()`. -/
def toLowerStr (s : List Char) : List Char := s.map Char.toLower

/-- `s.includes(pat)`. -/
def hasSub (pat : List Char) : List Char → Bool
  | [] => pat.isEmpty
  | c :: rest => if (c :: rest).take pat.length = pat then true else hasSub pat rest

/-- `tokensAfterString = /^($|\s*[:,\]\x7d\n#])/` as a test.  `$` (no `m`
flag) only matches the empty string here; the backtracking of `\s*`
succeeds exactly when the leading whitespace run contains a `\n` (the one
whitespace character in the class) or the first non-whitespace character
is in the class. -/
def tokensAfterStringTest (s : List Char) : Bool :=
  if s = [] then true
  else if (s.takeWhile isJsSpace).contains '\n' then true
  else
    match (s.dropWhile isJsSpace).head? with
    | some c => c = ':' ∨ c = ',' ∨ c = ']' ∨ c = '\x7d' ∨ c = '\n' ∨ c = '#'
    | none => false

/-- `unquotedVariablePattern = /^\x7b\x7b\s*\w+\s*\x7d\x7d/`: the match
(`match[0]`) at the start of `s`, if any.  The pattern is deterministic:
`\s`, `\w` and the braces are pairwise disjoint. -/
def unquotedVariableMatch (s : List Char) : Option (List Char) :=
  match s with
  | '\x7b' :: '\x7b' :: rest =>
    let ws1 := rest.takeWhile isJsSpace
    let r1 := rest.drop ws1.length
    let w := r1.takeWhile isJsWord
    if w = [] then none
    else
      let r2 := r1.drop w.length
      let ws2 := r2.takeWhile isJsSpace
      match r2.drop ws2.length with
      | '\x7d' :: '\x7d' :: _ =>
        some ('\x7b' :: '\x7b' :: (ws1 ++ w ++ ws2 ++ ['\x7d', '\x7d']))
      | _ => none
  | _ => none

/-- `entityAnchor = /^((#\d+)|(#x[0-9a-fA-F]+)|(\w+));$/` as a test.  Each
alternative is followed by a literal `;` and end-of-input; the repeated
classes are disjoint from `;`, so matching is deterministic. -/
def entityAnchorTest (a : List Char) : Bool :=
  match a with
  | '#' :: 'x' :: rest =>
    let h := rest.takeWhile isHexDigitCh
    ¬(h = []) ∧ rest.drop h.length = [';']
  | '#' :: rest =>
    let d := rest.takeWhile isDigitCh
    ¬(d = []) ∧ rest.drop d.length = [';']
  | _ =>
    let w := a.takeWhile isJsWord
    ¬(w = []) ∧ a.drop w.length = [';']

/-- The single-character class of `nonPrintablePattern` (`lib/check.js`
line 54).  The other two alternatives match lone UTF-16 surrogates, which
do not exist in this embedding (characters are Unicode scalar values). -/
def nonPrintableClass (c : Char) : Bool :=
  c ≤ '\x08' ∨ c = '\x0B' ∨ c = '\x0C' ∨ ('\x0E' ≤ c ∧ c ≤ '\x1F') ∨
    ('\x7F' ≤ c ∧ c ≤ '\u0084') ∨ ('\u0086' ≤ c ∧ c ≤ '\u009F') ∨
    c = '\uFFFE' ∨ c = '\uFFFF'

/-- One lower-case hexadecimal digit. -/
def hexDigitChar (n : Nat) : Char :=
  if n < 10 then Char.ofNat ('0'.toNat + n) else Char.ofNat ('a'.toNat + (n - 10))

def natToHexAux : Nat → Nat → List Char
  | 0, _ => []
  | fuel + 1, n => if n = 0 then [] else natToHexAux fuel (n / 16) ++ [hexDigitChar (n % 16)]

/-- `n.toString(16)` for a character code. -/
def natToHex (n : Nat) : List Char := if n = 0 then ['0'] else natToHexAux 8 n

/-- `.padStart(2, '0')`. -/
def padStart2 (l : List Char) : List Char :=
  if l.length < 2 then List.replicate (2 - l.length) '0' ++ l else l

/-- First index at or after `start` whose character satisfies `p`. -/
def findCharFrom (s : List Char) (p : Char → Bool) (start : Nat) : Option Nat :=
  match (s.drop start).findIdx? p with
  | some i => some (start + i)
  | none => none

/-- `isSimpleEscape(charCode)` of `lib/check.js` (by character). -/
def isSimpleEscape (c : Char) : Bool :=
  c = '0' ∨ c = 'a' ∨ c = 'b' ∨ c = 't' ∨ c = '\x09' ∨ c = 'n' ∨ c = 'v' ∨
    c = 'f' ∨ c = 'r' ∨ c = 'e' ∨ c = ' ' ∨ c = '"' ∨ c = '/' ∨ c = '\\' ∨
    c = 'N' ∨ c = '_' ∨ c = 'L' ∨ c = 'P'

/-- `isHexEscape(string, start)` of `lib/check.js`: `x`/`u`/`U` marker at
`start` followed by 2/4/8 hex digits (out-of-range reads fail the digit
test, as `charCodeAt` yields `NaN`). -/
def isHexEscape (s : List Char) (start : Nat) : Bool :=
  let t := s.get? start
  let stop := if t = some 'x' then some (start + 2)
    else if t = some 'u' then some (start + 4)
    else if t = some 'U' then some (start + 8)
    else none
  match stop with
  | none => false
  | some e => (List.range' (start + 1) (e - start)).all
      (fun i => (s.get? i).any isHexDigitCh)

/-- `fixedPositionFromState(statePosition)` (`lib/check.js` lines 94–97). -/
def fixedPositionFromState (sess : Session) (statePosition : Int) : Int :=
  sess.fixedEditor.currentPosition (sess.stateEditor.originalPosition statePosition)

/-- `spliceState(state, position, remove, insert)` (`lib/check.js` lines
88–92): splice the state editor and reset `state.input` to its value plus
the `\0` terminator (the `\n` appended by js-yaml is not restored). -/
def Session.spliceState (sess : Session) (position remove : Nat) (ins : List Char) :
    Session :=
  let se := sess.stateEditor.splice position remove ins
  { sess with stateEditor := se, input := se.value ++ ['\u0000'] }

/-- `issues[idx].level = lvl` (mutating a pushed issue in place). -/
def setIssueLevel (issues : List Issue) (idx : Nat) (lvl : List Char) : List Issue :=
  match issues.get? idx with
  | some iss => issues.set idx { iss with level := lvl }
  | none => issues

/-- The non-printable-character pre-pass of `lint` (`lib/check.js` lines
108–142), on fuel.  `exec` on the global regex resumes at `lastIndex =
match.index + 1` while the matched character has just been removed from
the editor's value, so the character that slides into the match position
is skipped — exactly as in the source. -/
def prePassLoop (fix removeInvalid : Bool) :
    Nat → Nat → Editor → Editor → List Issue → Editor × Editor × List Issue
  | 0, _, se, fe, iss => (se, fe, iss)
  | fuel + 1, lastIndex, se, fe, iss =>
    match findCharFrom se.value nonPrintableClass lastIndex with
    | none => (se, fe, iss)
    | some pos =>
      let c := (se.value.get? pos).getD '\u0000'
      let codePoint := "#x".data ++ padStart2 (natToHex c.toNat)
      let issue0 : Issue := {
        message := "The non-printable character ".data ++ codePoint ++
          " is not allowed in YAML".data
        level := "error".data
        mark := some (se.markOriginalPosition pos) }
      let step :=
        if fix ∧ removeInvalid then
          (fe.splice (fe.currentPosition (se.originalPosition pos)).toNat 1 [],
            { issue0 with level := "fixed".data })
        else (fe, issue0)
      prePassLoop fix removeInvalid fuel (pos + 1) (se.splice pos 1 [])
        step.1 (iss ++ [step.2])

/-- The quote-wrap completion shared by the `@` and `[` handlers: wrap
`input.slice(nextTokenStart, endPosition)` in double quotes; with `fix`,
mirror the splice into the fixed editor and set the already-pushed issue's
level to `fixed`. -/
def wrapFinish (fix : Bool) (nextTokenStart issueIdx : Nat) (sess : Session)
    (endPosition : Nat) : Session :=
  let scalar := jsSlice sess.input nextTokenStart endPosition
  let sess1 :=
    if fix then
      let fe := sess.fixedEditor.splice
        (fixedPositionFromState sess nextTokenStart).toNat scalar.length
        ('"' :: (scalar ++ ['"']))
      { sess with fixedEditor := fe
                  issues := setIssueLevel sess.issues issueIdx "fixed".data }
    else sess
  sess1.spliceState nextTokenStart scalar.length ('"' :: (scalar ++ ['"']))

/-- The `while (startPosition > -1)` quote-wrapping loop of the `@` and
`[` handlers (`lib/check.js` lines 379–423 and 484–528), on fuel.  The
guard of `findProbableEndOfScalar` always passes here (`quoteType` is the
literal `"` and the start is a `Nat`), so the quoted search is called
directly.  `quoteType === "'"` is false, so `escape` is `\`. -/
def wrapScalarLoop (fix : Bool) (lineIndent nextTokenStart issueIdx : Nat) :
    Nat → Nat → Session → Session
  | 0, _, sess => sess
  | fuel + 1, startPosition, sess =>
    let pe := findProbableEndOfQuotedScalar sess.input '"' startPosition false
      (some lineIndent)
    let position := pe.1
    if position = -1 then sess
    else if pe.2 then
      let sess1 :=
        if fix then
          let fe := sess.fixedEditor.splice (fixedPositionFromState sess position).toNat 0 ['\\']
          { sess with fixedEditor := fe }
        else sess
      let sess2 := sess1.spliceState position.toNat 0 ['\\']
      let startPosition2 := position.toNat + 2
      if tokensAfterStringTest (sess2.input.drop startPosition2) then
        wrapFinish fix nextTokenStart issueIdx sess2 startPosition2
      else
        wrapScalarLoop fix lineIndent nextTokenStart issueIdx fuel startPosition2 sess2
    else
      wrapFinish fix nextTokenStart issueIdx sess position.toNat

/-- The `while (startPosition > -1)` loop of the quoted-scalar detector
(`lib/check.js` lines 196–290), on fuel; returns the session and the
final `endPosition`.  `exact` is `!guessable`, i.e. inexact endings are
only guessed for double quotes; the `findProbableEndOfScalar` guard
passes (the quote type comes from a quote character seen in the input). -/
def quotedScalarLoop (fix : Bool) (q : Char) (lineIndent nextTokenStart : Nat) :
    Nat → Nat → Nat → Session → Session × Int
  | 0, _, _, sess => (sess, -1)
  | fuel + 1, startPosition, unescapedCount, sess =>
    let guessable := q == '"'
    let pe := findProbableEndOfQuotedScalar sess.input q startPosition (!guessable)
      (some lineIndent)
    let position := pe.1
    if pe.2 = false then
      let issue : Issue := {
        message := "quoted string has no end quote (did you start the string with quotes, but those weren\x27t meant to quote the whole string?)".data
        level := if fix then "fixed".data else "error".data
        mark := some (sess.stateEditor.markOriginalPosition position) }
      let sess0 := { sess with issues := sess.issues ++ [issue] }
      let fullString := jsSlice sess0.input nextTokenStart position.toNat
      -- `prefix` in the source
      let pre : List Char := if unescapedCount % 2 = 0 then [] else ['"', '\\']
      let replacement := pre ++ (fullString ++ ['"'])
      let sess1 :=
        if fix then
          let fixedStart := fixedPositionFromState sess0 nextTokenStart
          let fixedPosition := fixedPositionFromState sess0 position
          let fe := sess0.fixedEditor.splice fixedStart.toNat
            (fixedPosition - fixedStart).toNat replacement
          { sess0 with fixedEditor := fe }
        else sess0
      let sess2 := sess1.spliceState nextTokenStart fullString.length replacement
      quotedScalarLoop fix q lineIndent nextTokenStart fuel
        (position.toNat + pre.length) unescapedCount sess2
    else if position = -1 ∨ tokensAfterStringTest (sess.input.drop (position + 1).toNat) then
      (sess, position)
    else
      let issue : Issue := {
        message := "unescaped quote in quoted string".data
        level := if fix then "fixed".data else "error".data
        mark := some (sess.stateEditor.markOriginalPosition position) }
      let sess0 := { sess with issues := sess.issues ++ [issue] }
      -- escape = quoteType === "'" ? "'" : '\\'
      let esc : Char := if q = '\x27' then '\x27' else '\\'
      let sess1 :=
        if fix then
          let fe := sess0.fixedEditor.splice (fixedPositionFromState sess0 position).toNat 0 [esc]
          { sess0 with fixedEditor := fe }
        else sess0
      let sess2 := sess1.spliceState position.toNat 0 [esc]
      quotedScalarLoop fix q lineIndent nextTokenStart fuel (position.toNat + 2)
        (unescapedCount + 1) sess2

/-- The invalid-escape scan after a double-quoted scalar (`lib/check.js`
lines 292–328), on fuel. -/
def escapeScanLoop (fix : Bool) (endPosition : Int) :
    Nat → Int → Session → Session
  | 0, _, sess => sess
  | fuel + 1, position, sess =>
    if position > -1 ∧ position < endPosition then
      let position2 := idxOfFrom sess.input '\\' position.toNat
      if position2 = -1 ∨ position2 ≥ endPosition then sess
      else if (charAt sess.input (position2 + 1)).any isSimpleEscape ∨
          isHexEscape sess.input (position2.toNat + 1) then
        escapeScanLoop fix endPosition fuel (position2 + 2) sess
      else
        let issue : Issue := {
          message := "Invalid escape sequence: \"\\".data ++
            (match charAt sess.input (position2 + 1) with
             | some c => [c]
             | none => "undefined".data) ++ ['"']
          level := if fix then "fixed".data else "error".data
          mark := some (sess.stateEditor.markOriginalPosition position2) }
        let sess0 := { sess with issues := sess.issues ++ [issue] }
        let sess1 :=
          if fix then
            let fe := sess0.fixedEditor.splice (fixedPositionFromState sess0 position2).toNat 1 []
            { sess0 with fixedEditor := fe }
          else sess0
        let sess2 := sess1.spliceState position2.toNat 1 []
        escapeScanLoop fix endPosition fuel position2 sess2
    else sess

/-- The `'open'` branch of the listener (`lib/check.js` lines 165–534). -/
def handleOpen (opts : LintOptions) (position lineIndent : Nat) (sess : Session) :
    Session :=
  let sess := { sess with tokenIndent := lineIndent, tokenIndentWarnings := [] }
  let nextTokenStart := findNextNonSpace sess.input position
  let nextTokenChar := charAt sess.input nextTokenStart
  -- unescaped quotes in quoted strings, then invalid escapes
  let sess :=
    if nextTokenChar = some '\x27' ∨ nextTokenChar = some '"' then
      let q := nextTokenChar.getD '"'
      let r := quotedScalarLoop opts.fix q lineIndent nextTokenStart.toNat
        (2 * sess.input.length + 16) (nextTokenStart.toNat + 1) 0 sess
      if r.2 > -1 ∧ q = '"' then
        escapeScanLoop opts.fix r.2 (2 * r.1.input.length + 4) nextTokenStart r.1
      else r.1
    else sess
  -- improperly quoted variable substitutions
  let sess :=
    if nextTokenChar = some '\x7b' ∧ (position : Int) > sess.unquotedVariablePosition then
      match unquotedVariableMatch (sess.input.drop nextTokenStart.toNat) with
      | some m =>
        let sess := { sess with unquotedVariablePosition := nextTokenStart }
        let issue : Issue := {
          message := "Did you mean to substitute a variable? It must be quoted: \x27".data
            ++ m ++ "\x27".data
          level := if opts.fix then "fixed".data else "warning".data
          mark := some (sess.stateEditor.markOriginalPosition nextTokenStart) }
        let sess := { sess with issues := sess.issues ++ [issue] }
        if opts.fix then
          let fe := sess.fixedEditor.splice
            (fixedPositionFromState sess nextTokenStart).toNat m.length
            ('\x27' :: (m ++ ['\x27']))
          let sess1 := { sess with fixedEditor := fe }
          sess1.spliceState nextTokenStart.toNat m.length ('\x27' :: (m ++ ['\x27']))
        else sess
      | none => sess
    else sess
  -- `@` signs that start string values
  let sess :=
    if (position : Int) > sess.atSignPosition ∧ nextTokenChar = some '@' then
      let sess := { sess with atSignPosition := nextTokenStart }
      let issue : Issue := {
        message := "`@` cannot start any token".data
        level := "warning".data
        mark := some (sess.stateEditor.markOriginalPosition nextTokenStart) }
      let issueIdx := sess.issues.length
      let sess := { sess with issues := sess.issues ++ [issue] }
      wrapScalarLoop opts.fix lineIndent nextTokenStart.toNat issueIdx
        (sess.input.length + 2) nextTokenStart.toNat sess
    else sess
  -- strings that start with `[` and parse as sequences
  let sess :=
    if nextTokenStart > sess.lastTokenPosition ∧ nextTokenChar = some '[' then
      let seqMatch := '[' :: (sess.input.drop (nextTokenStart.toNat + 1)).takeWhile
        (fun c => ¬(c = ']' ∨ c = '\x27' ∨ c = '"'))
      let sequenceEnd := nextTokenStart.toNat + seqMatch.length
      if charAt sess.input sequenceEnd = some ']' ∧
          ¬ tokensAfterStringTest (sess.input.drop (sequenceEnd + 1)) then
        let suggestion := '"' :: (seqMatch ++ [']'] ++
          jsSlice sess.input (sequenceEnd + 1) (sequenceEnd + 5) ++ "...\"".data)
        let issue : Issue := {
          message := "`[` cannot start a string. If this was supposed to be a string, add quotes around it: ".data ++ suggestion
          level := "error".data
          mark := some (sess.stateEditor.markOriginalPosition nextTokenStart) }
        let issueIdx := sess.issues.length
        let sess := { sess with issues := sess.issues ++ [issue] }
        wrapScalarLoop opts.fix lineIndent nextTokenStart.toNat issueIdx
          (sess.input.length + 2) nextTokenStart.toNat sess
      else sess
    else sess
  { sess with lastTokenPosition := nextTokenStart
              previousStatePosition := some position }

/-- The per-warning body of the deficient-indentation fix loop
(`lib/check.js` lines 553–570). -/
def indentFixLoop (indent : Nat) : List Nat → Session → Except (List Char) Session
  | [], sess => .ok sess
  | idx :: rest, sess =>
    match sess.issues.get? idx with
    | none => indentFixLoop indent rest sess
    | some w =>
      match w.mark with
      | none => .error "TypeError: Cannot read property \x27position\x27 of undefined".data
      | some mk =>
        let position := sess.fixedEditor.currentPosition mk.position
        let lineStart := jsLastIndexOf sess.fixedEditor.value '\n' position + 1
        if lineStart > 0 then
          let existingIndent := position - lineStart
          if (indent : Int) - existingIndent < 0 then
            .error "RangeError: Invalid count value".data
          else
            let fe := sess.fixedEditor.splice position.toNat 0
              (List.replicate ((indent : Int) - existingIndent).toNat ' ')
            indentFixLoop indent rest
              { sess with fixedEditor := fe
                          issues := setIssueLevel sess.issues idx "fixed".data }
        else indentFixLoop indent rest sess

/-- The `'close'` branch of the listener (`lib/check.js` lines 536–573).
The entity-anchor warning reads `previousState.position`, a `TypeError`
when `previousState` is still `null`; its `return` skips both the
indentation fix and the `previousState` update. -/
def handleClose (opts : LintOptions) (anchor kind : Option (List Char))
    (position : Nat) (sess : Session) : Except (List Char) Session :=
  let anchorEntity : Bool := match anchor with
    | some a => !(a.isEmpty) && entityAnchorTest a
    | none => false
  if anchorEntity then
    match sess.previousStatePosition with
    | none => .error "TypeError: Cannot read property \x27position\x27 of null".data
    | some pp =>
      let warning : Issue := {
        message := "This value has an anchor that appears to be an HTML entity. If you want it to be part of the value, make sure the value is quoted.".data
        level := "warning".data
        mark := some (sess.stateEditor.markOriginalPosition pp) }
      .ok { sess with issues := sess.issues ++ [warning] }
  else
    let step :=
      if opts.fix ∧ kind = some "scalar".data ∧ ¬(sess.tokenIndentWarnings = []) then
        indentFixLoop (sess.tokenIndent + 2) sess.tokenIndentWarnings sess
      else .ok sess
    match step with
    | .error e => .error e
    | .ok sess2 => .ok { sess2 with previousStatePosition := some position }

/-- The `onWarning` callback (`lib/check.js` lines 150–163). -/
def handleWarn (message : List Char) (markPosition : Nat) (sess : Session) : Session :=
  let warning : Issue := {
    message := message
    level := "warning".data
    mark := some (sess.stateEditor.markOriginalPosition markPosition) }
  let idx := sess.issues.length
  { sess with
    issues := sess.issues ++ [warning]
    tokenIndentWarnings :=
      if hasSub "deficient indentation".data message then
        sess.tokenIndentWarnings ++ [idx]
      else sess.tokenIndentWarnings }

def runEvent (opts : LintOptions) (sess : Session) : PEvent → Except (List Char) Session
  | .eopen position lineIndent => .ok (handleOpen opts position lineIndent sess)
  | .eclose anchor kind position => handleClose opts anchor kind position sess
  | .ewarn message markPosition => .ok (handleWarn message markPosition sess)

def runTraceGo (opts : LintOptions) : List PEvent → Session → Except (List Char) Session
  | [], sess => .ok sess
  | e :: rest, sess =>
    match runEvent opts sess e with
    | .ok sess2 => runTraceGo opts rest sess2
    | .error msg => .error msg

/-- The pre-pass plus the traced parser callbacks of one `lint` run: the
part of `lint` before the outcome of `yaml.loadAll` is known. -/
def lintListenerPhase (yamlText : List Char) (opts : LintOptions)
    (trace : List PEvent) : Except (List Char) Session :=
  let pp := prePassLoop opts.fix opts.removeInvalidCharacters (yamlText.length + 1) 0
    (Editor.init yamlText) (Editor.init yamlText) []
  runTraceGo opts trace
    { stateEditor := pp.1
      fixedEditor := pp.2.1
      issues := pp.2.2
      previousStatePosition := none
      unquotedVariablePosition := -1
      atSignPosition := -1
      lastTokenPosition := -1
      tokenIndent := 0
      tokenIndentWarnings := []
      input := jsYamlNormalize pp.1.value }

/-- `lint(yamlText, options)` (`lib/check.js` lines 72–649) for a given
callback trace and parse outcome.  The catch block: an unmarked exception
is rethrown; a marked one becomes an `error` issue, with the
bad-indentation reason rewritten when the offending line mixes spaces and
tabs, and is suppressed entirely when the original text has `@` at the
mark position. -/
def lint (yamlText : List Char) (opts : LintOptions) (trace : List PEvent)
    (outcome : POutcome) : Except (Option Mark × List Char) LintResult :=
  match lintListenerPhase yamlText opts trace with
  | .error msg => .error (none, msg)
  | .ok sess =>
    match outcome with
    | .ok =>
      .ok { issues := sess.issues
            fixed := if opts.fix then some sess.fixedEditor.value else none }
    | .thrown reason mark =>
      match mark with
      | none => .error (none, reason)
      | some m =>
        let issue0 : Issue := { message := reason, level := "error".data, mark := some m }
        let issue1 :=
          if hasSub "bad indentation".data (toLowerStr reason) then
            let lineStart := m.position - m.column
            let indentRun := (jsSliceFromInt yamlText lineStart).takeWhile isJsSpace
            if indentRun.contains ' ' ∧ indentRun.contains '\x09' then
              { issue0 with message := "line is indented with mixed spaces and tabs".data }
            else issue0
          else issue0
        let issues2 :=
          if charAt yamlText m.position = some '@' then sess.issues
          else sess.issues ++ [issue1]
        .ok { issues := issues2
              fixed := if opts.fix then some sess.fixedEditor.value else none }

/-- **C1.**  `lint` never throws for YAML syntax faults and an exception
raised during parsing propagates if and only if it carries no position
mark: the run throws exactly when a callback raised a JavaScript-internal
(unmarked) exception, or the parse outcome was an exception without a
`mark`.  Contrapositive: every outcome thrown *with* a mark is absorbed
into `issues` and the call returns normally. -/
theorem c1_throws_iff_unmarked (yamlText : List Char) (opts : LintOptions)
    (trace : List PEvent) (outcome : POutcome) :
    exceptOk (lint yamlText opts trace outcome) = false ↔
      (exceptOk (lintListenerPhase yamlText opts trace) = false ∨
        ∃ reason, outcome = POutcome.thrown reason none) := by
  rcases hph : lintListenerPhase yamlText opts trace with msg | sess
  · simp [lint, hph, exceptOk]
  · rcases outcome with _ | ⟨reason, mark⟩
    · simp [lint, hph, exceptOk]
    · rcases mark with _ | m
      · simp [lint, hph, exceptOk]
      · simp [lint, hph, exceptOk]

/-- **C2 (counterexample).**  On `"k: @v"` (length 5) with `fix = false`
and a parse trace whose second `open` sits before the `@`, the `@` handler
splices the state buffer to `k: "@v"`; when the parser then fails at
position 6 of *that* buffer, the catch block pushes the error with its raw,
untranslated mark, so the returned issue has `mark.position = 6 >
len(text) = 5` — the spec's `[0, len(text)]` bound is violated (the
`fixed = null` half for `fix:false` does hold here). -/
theorem c2_mark_bound_counterexample :
    lint "k: @v".data ⟨false, false, true, none⟩ [.eopen 0 0, .eopen 2 0]
        (.thrown "end of the stream".data (some ⟨6, 0, 6⟩))
      = Except.ok ⟨[⟨"`@` cannot start any token".data, "warning".data, some ⟨3, 0, 3⟩⟩,
          ⟨"end of the stream".data, "error".data, some ⟨6, 0, 6⟩⟩], none⟩ ∧
    ¬((6 : Int) ≤ ("k: @v".data.length : Int)) := by
  decide

/-- **C2 (amended).**  The half of the claim that does hold universally:
whenever `lint` returns a result, `fixed` is `null` exactly when the `fix`
option is off (mark positions of issues are *not* always within
`[0, len(text)]`, by the counterexample). -/
theorem c2_fixed_null_iff_fix (yamlText : List Char) (opts : LintOptions)
    (trace : List PEvent) (outcome : POutcome) (r : LintResult)
    (h : lint yamlText opts trace outcome = Except.ok r) :
    r.fixed = none ↔ opts.fix = false := by
  rcases hph : lintListenerPhase yamlText opts trace with msg | sess
  · simp [lint, hph] at h
  · rcases outcome with _ | ⟨reason, mark⟩
    · cases hf : opts.fix <;> simp [lint, hph, hf] at h <;> subst h <;> simp [hf]
    · rcases mark with _ | m
      · simp [lint, hph] at h
      · cases hf : opts.fix <;> simp [lint, hph, hf] at h <;> subst h <;> simp [hf]

/-- Witness for `c2_fixed_null_iff_fix` on the `@`-sign input with
`fix = false`: the result is returned and its `fixed` is `null`. -/
theorem c2_fixed_null_iff_fix_witness :
    lint "some_key: @at sign value".data ⟨false, false, true, none⟩
        [.eopen 0 0, .eopen 9 0] .ok
      = Except.ok ⟨[⟨"`@` cannot start any token".data, "warning".data,
          some ⟨10, 0, 10⟩⟩], none⟩ ∧
    ((none : Option (List Char)) = none ↔ false = false) :=
  ⟨by decide,
    c2_fixed_null_iff_fix "some_key: @at sign value".data ⟨false, false, true, none⟩
      [.eopen 0 0, .eopen 9 0] .ok
      ⟨[⟨"`@` cannot start any token".data, "warning".data, some ⟨10, 0, 10⟩⟩], none⟩
      (by decide)⟩

/-- **C9.**  On `some_key: @at sign value` (with the parser opening at 0
and at 9), `lint` returns exactly one issue, the warning
`` `@` cannot start any token `` at position 10; with `fix`, the fixed
output is `some_key: "@at sign value"` and the issue's level is `fixed`. -/
theorem c9_at_sign_concrete :
    lint "some_key: @at sign value".data ⟨true, false, true, none⟩
        [.eopen 0 0, .eopen 9 0] .ok
      = Except.ok ⟨[⟨"`@` cannot start any token".data, "fixed".data,
          some ⟨10, 0, 10⟩⟩], some "some_key: \"@at sign value\"".data⟩ ∧
    lint "some_key: @at sign value".data ⟨false, false, true, none⟩
        [.eopen 0 0, .eopen 9 0] .ok
      = Except.ok ⟨[⟨"`@` cannot start any token".data, "warning".data,
          some ⟨10, 0, 10⟩⟩], none⟩ := by
  decide

/-! ## checkFile (`lib/check.js` `lintFile`) -/

/-- The basename of a path (the part after the last `/`). -/
def basenameOf (p : List Char) : List Char :=
  (p.reverse.takeWhile (fun c => ¬(c = '/'))).reverse

/-- Node's `path.extname`: from the last `.` of the basename, empty when
there is no `.` or the basename starts with its only `.`. -/
def extname (p : List Char) : List Char :=
  let b := basenameOf p
  let i := jsLastIndexOf b '.' ((b.length : Int) - 1)
  if i ≤ 0 then [] else b.drop i.toNat

/-- `lintFile(filePath, content, options)` (`lib/check.js` lines 926–962)
with the file's content supplied.  Returns the `lint` result together with
the content written back to the file (`none` when nothing is written:
`result.fixed` must be truthy — non-null *and* non-empty — and differ from
`yamlText`, and `options.write === false` or `options.debug` divert the
write to `console.debug`). -/
def lintFile (filePath content : List Char) (opts : LintOptions)
    (trace : List PEvent) (outcome : POutcome) :
    Except (Option Mark × List Char) (LintResult × Option (List Char)) :=
  let isMd := extname filePath = ".md".data
  let seg := getPageSegments content
  let yamlText := if isMd then seg.1 else content
  let markdown : Option (List Char) := if isMd then some seg.2 else none
  match lint yamlText opts trace outcome with
  | .error e => .error e
  | .ok result =>
    let written :=
      match result.fixed with
      | some f =>
        if ¬(f = []) ∧ ¬(yamlText = f) then
          let fixedContent := match markdown with
            | some md => joinPageSegments f md
            | none => f
          if opts.write = some false ∨ opts.debug then none
          else some fixedContent
        else none
      | none => none
    .ok (result, written)

/-- **C8 (counterexample).**  `fix` requested and `options.write != false`,
yet no write happens: on the clean file `a.yaml` with content
`key: value\n`, `lint` returns `fixed` equal to the input, so the
`yamlText !== result.fixed` guard fails and `lintFile` never overwrites
the file. -/
theorem c8_write_counterexample :
    lintFile "a.yaml".data "key: value\n".data ⟨true, false, true, none⟩ [] .ok
      = Except.ok (⟨[], some "key: value\n".data⟩, none) := by
  decide

/-- **C8 (amended).**  When `fix` produces a non-empty fixed text that
*differs* from the linted YAML text, and `options.write != false` and
`options.debug` is off, `lintFile` overwrites the file with the fixed
content — for a `.md` path, the fixed front-matter rejoined to the
untouched Markdown body. -/
theorem c8_write_gate (filePath content : List Char) (opts : LintOptions)
    (trace : List PEvent) (outcome : POutcome) (r : LintResult)
    (w : Option (List Char)) (f : List Char)
    (h : lintFile filePath content opts trace outcome = Except.ok (r, w))
    (hf : r.fixed = some f) (hne : ¬(f = []))
    (hdiff : ¬((if extname filePath = ".md".data then (getPageSegments content).1
        else content) = f))
    (hw : ¬(opts.write = some false)) (hd : opts.debug = false) :
    w = some (if extname filePath = ".md".data then
        joinPageSegments f (getPageSegments content).2
      else f) := by
  rcases hl : lint (if extname filePath = ".md".data then (getPageSegments content).1
      else content) opts trace outcome with e | result
  · simp [lintFile, hl] at h
  · simp [lintFile, hl] at h
    rcases h with ⟨hr, hwr⟩
    subst hr
    rw [hf] at hwr
    simp [hne, hdiff, hw, hd] at hwr
    by_cases hmd : extname filePath = ".md".data
    · simp [hmd] at hwr ⊢
      exact hwr.symm
    · simp [hmd] at hwr ⊢
      exact hwr.symm

/-- Witness for `c8_write_gate`: a `.md` page whose front matter gets the
`@`-sign fix; the file is rewritten with the fixed front-matter joined
back onto the body. -/
theorem c8_write_gate_witness :
    lintFile "page.md".data "---\nsome_key: @at sign value\n---\nBody\n".data
        ⟨true, false, true, none⟩ [.eopen 0 0, .eopen 13 0] .ok
      = Except.ok (⟨[⟨"`@` cannot start any token".data, "fixed".data,
            some ⟨14, 1, 10⟩⟩], some "---\nsome_key: \"@at sign value\"\n".data⟩,
          some "---\nsome_key: \"@at sign value\"\n---\nBody\n".data) ∧
    (some "---\nsome_key: \"@at sign value\"\n---\nBody\n".data : Option (List Char))
      = some (if extname "page.md".data = ".md".data then
          joinPageSegments "---\nsome_key: \"@at sign value\"\n".data
            (getPageSegments "---\nsome_key: @at sign value\n---\nBody\n".data).2
        else "---\nsome_key: \"@at sign value\"\n".data) :=
  ⟨by decide,
    c8_write_gate "page.md".data "---\nsome_key: @at sign value\n---\nBody\n".data
      ⟨true, false, true, none⟩ [.eopen 0 0, .eopen 13 0] .ok
      ⟨[⟨"`@` cannot start any token".data, "fixed".data, some ⟨14, 1, 10⟩⟩],
        some "---\nsome_key: \"@at sign value\"\n".data⟩
      (some "---\nsome_key: \"@at sign value\"\n---\nBody\n".data)
      "---\nsome_key: \"@at sign value\"\n".data
      (by decide) (by decide) (by decide) (by decide) (by decide) (by decide)⟩

end YamlDoctor




